import Mathlib

/-!
Shallow embedding of the `cpp-search-server` repository core
(`search_server.h` / `search_server.cpp`, with `main.cpp` providing the
tokenizer `SplitIntoWords` and the `Document` / `DocumentStatus` types).

C++ `std::map` / `std::set` are embedded as association lists kept sorted
strictly by key; `double` is embedded as `ℚ` with the transcendental
`std::log` kept as an explicit function parameter `LOG : ℚ → ℚ` of the
scoring pipeline, so every theorem about scoring quantifies over the
logarithm. Exceptions are embedded as `Option` / explicit error codes;
for the mutating operations whose C++ counterparts can throw after having
already mutated the object, the embedding returns the post-state together
with a `Bool` recording whether an exception escaped.
-/

set_option autoImplicit false
set_option linter.unusedSectionVars false

universe u v

variable {κ : Type u} {α : Type v}

/-- Association list standing for a C++ `std::map` whose entries are kept
sorted strictly by key. -/
abbrev SMap (κ : Type u) (α : Type v) : Type (max u v) := List (κ × α)

/-- Lookup of the first entry with the given key (`std::map::find` /
`std::map::at`; with sorted, duplicate-free keys this is the unique entry). -/
def mFind? [DecidableEq κ] (k : κ) : SMap κ α → Option α
  | [] => none
  | e :: t => if e.1 = k then some e.2 else mFind? k t

/-- Key membership test, `std::map::count > 0`. -/
def mContains [DecidableEq κ] (m : SMap κ α) (k : κ) : Bool :=
  (mFind? k m).isSome

/-- Insert-or-assign at the sorted position (`std::map::operator[] = v` /
`emplace` on an absent key). -/
def mSet [LinearOrder κ] [DecidableEq κ] : SMap κ α → κ → α → SMap κ α
  | [], k, v => [(k, v)]
  | e :: t, k, v =>
    if k < e.1 then (k, v) :: e :: t
    else if k = e.1 then (k, v) :: t
    else e :: mSet t k v

/-- Erase every entry with the given key (`std::map::erase(key)`; with
duplicate-free keys this erases the unique entry or nothing). -/
def mErase [DecidableEq κ] : SMap κ α → κ → SMap κ α
  | [], _ => []
  | e :: t, k => if e.1 = k then mErase t k else e :: mErase t k

/-- Accumulating update `m[k] += δ` of `std::map<_, double>`:
`operator[]` value-initialises an absent entry to `0` before adding. -/
def mAdd [LinearOrder κ] [DecidableEq κ] (m : SMap κ ℚ) (k : κ) (δ : ℚ) : SMap κ ℚ :=
  mSet m k (((mFind? k m).getD 0) + δ)

/-- Two-level lookup `M.at(a).find(b)` on a map of maps, `none` when either
level misses. -/
def mFind2 [DecidableEq κ] {κ₂ : Type v} {β : Type u} [DecidableEq κ₂]
    (M : SMap κ (SMap κ₂ β)) (a : κ) (b : κ₂) : Option β :=
  match mFind? a M with
  | none => none
  | some inner => mFind? b inner

/-- Sum of the values of a frequency map. -/
def valuesSum (m : SMap κ ℚ) : ℚ :=
  m.foldr (fun e acc => e.2 + acc) 0

/-- Insertion into a sorted `std::set`. -/
def sInsert [LinearOrder κ] [DecidableEq κ] : List κ → κ → List κ
  | [], k => [k]
  | a :: t, k =>
    if k < a then k :: a :: t
    else if k = a then a :: t
    else a :: sInsert t k

/-- Erasure from a sorted `std::set`. -/
def sErase [DecidableEq κ] : List κ → κ → List κ
  | [], _ => []
  | a :: t, k => if a = k then sErase t k else a :: sErase t k

/-- Strict ascending chain check on a key list: the well-formedness of the
sorted-map embedding. -/
def chainLt [LinearOrder κ] : List κ → Bool
  | [] => true
  | [_] => true
  | a :: b :: t => decide (a < b) && chainLt (b :: t)

/-- Well-formedness of an embedded `std::map`: keys strictly ascending. -/
def mWF [LinearOrder κ] (m : SMap κ α) : Bool :=
  chainLt (m.map Prod.fst)

/-- Tokenizer worker over the character list, accumulating the current word
reversed (embedding of `SplitIntoWords`, main.cpp:32). -/
def splitIntoWordsAux : List Char → List Char → List String
  | [], acc => if acc.isEmpty then [] else [String.mk acc.reverse]
  | c :: rest, acc =>
    if c = ' ' then
      if acc.isEmpty then splitIntoWordsAux rest []
      else String.mk acc.reverse :: splitIntoWordsAux rest []
    else splitIntoWordsAux rest (c :: acc)

/-- Embeds `SplitIntoWords` (main.cpp:32): split on the space character, dropping
empty chunks. -/
def splitIntoWords (text : String) : List String :=
  splitIntoWordsAux text.toList []

/-- Embeds `SearchServer::IsValidWord` (search_server.cpp:146): a word is valid when
no character has code point in `[0, 32)`. -/
def isValidWord (w : String) : Bool :=
  w.toList.all fun c => decide (32 ≤ c.toNat)

/-- Embeds `DocumentStatus` (main.cpp:59). -/
inductive DocumentStatus : Type
  | ACTUAL
  | IRRELEVANT
  | BANNED
  | REMOVED
deriving DecidableEq, Repr

/-- Embeds `Document` (main.cpp:53): result record of a search, with `relevance`
(C++ `double`) embedded as `ℚ`. -/
structure Document : Type where
  id : Int
  relevance : ℚ
  rating : Int
deriving DecidableEq, Repr

/-- Embeds `SearchServer::DocumentData` (search_server.h:74). -/
structure DocumentData : Type where
  rating : Int
  status : DocumentStatus
deriving DecidableEq, Repr

/-- State of a `SearchServer` (search_server.h:79): stop words, the
document-metadata map, the inverted index `word_to_document_freqs_`, the
forward index `document_to_word_freqs_` and the live-id set
`document_ids_`. The interning deque `dictionary_` only backs string-view
storage and has no further observable semantics, so it is not carried. -/
structure SearchServer : Type where
  stopWords : List String
  documents : SMap Int DocumentData
  wordToDocumentFreqs : SMap String (SMap Int ℚ)
  documentToWordFreqs : SMap Int (SMap String ℚ)
  documentIds : List Int
deriving DecidableEq, Repr

/-- Errors thrown by `AddDocument`: `Invalid document_id`
(search_server.cpp:13) versus an invalid word in the text
(search_server.cpp:156); both are `std::invalid_argument` in C++ but the
spec's taxonomy distinguishes them as `InvalidArgument` / `InvalidDocument`. -/
inductive AddErr : Type
  | invalidArgument
  | invalidDocument
deriving DecidableEq, Repr

/-- Modelled from the spec (interface of the missing `string_processing.h`):
`MakeUniqueNonEmptyStrings` builds the `std::set` of stop words from the
container, keeping unique non-empty strings. The sorted-set fold realises
exactly that. -/
def makeUniqueNonEmptyStrings (ws : List String) : List String :=
  (ws.filter fun w => w ≠ "").foldl sInsert []

/-- The `SearchServer` constructor (search_server.h:122): stores the unique
non-empty stop words; all indices start empty. (The constructor throws on an
invalid stop word, in which case no object exists; reachable states may
therefore be taken with arbitrary stop-word sets without loss.) -/
def mkServer (stop : List String) : SearchServer :=
  ⟨makeUniqueNonEmptyStrings stop, [], [], [], []⟩

/-- Embeds `SearchServer::IsStopWord` (search_server.cpp:142). -/
def isStopWord (s : SearchServer) (w : String) : Bool :=
  decide (w ∈ s.stopWords)

/-- Embeds `SearchServer::SplitIntoWordsNoStop` (search_server.cpp:152): throws
(`none`) as soon as any token is invalid, otherwise keeps the non-stop
tokens in order. -/
def splitIntoWordsNoStop (s : SearchServer) (text : String) : Option (List String) :=
  let ws := splitIntoWords text
  if ws.all isValidWord then some (ws.filter fun w => !(isStopWord s w)) else none

/-- Embeds `SearchServer::ComputeAverageRating` (search_server.cpp:165): integer
average with C++ `int` division, i.e. `Int.tdiv` (truncation toward zero). -/
def computeAverageRating (ratings : List Int) : Int :=
  if ratings = [] then 0
  else Int.tdiv (ratings.foldl (· + ·) 0) (ratings.length : Int)

/-- One iteration of the indexing loop of `AddDocument`
(search_server.cpp:20): add `inv_word_count` to the inverted and the forward
entry of the current word. -/
def stepWord (id : Int) (δ : ℚ) (p : SMap String (SMap Int ℚ) × SMap Int (SMap String ℚ))
    (w : String) : SMap String (SMap Int ℚ) × SMap Int (SMap String ℚ) :=
  (mSet p.1 w (mAdd ((mFind? w p.1).getD []) id δ),
   mSet p.2 id (mAdd ((mFind? id p.2).getD []) w δ))

/-- Embeds `SearchServer::AddDocument` (search_server.cpp:11). Returns the
post-state and the error, if any; the C++ code performs no mutation before
either throw, so the error post-state is the original state. -/
def addDocument (s : SearchServer) (id : Int) (text : String)
    (status : DocumentStatus) (ratings : List Int) : SearchServer × Option AddErr :=
  if id < 0 ∨ mContains s.documents id then (s, some .invalidArgument)
  else
    match splitIntoWordsNoStop s text with
    | none => (s, some .invalidDocument)
    | some words =>
      let δ : ℚ := 1 / (words.length : ℚ)
      let p := words.foldl (stepWord id δ) (s.wordToDocumentFreqs, s.documentToWordFreqs)
      ({ s with
          wordToDocumentFreqs := p.1,
          documentToWordFreqs := p.2,
          documents := mSet s.documents id ⟨computeAverageRating ratings, status⟩,
          documentIds := sInsert s.documentIds id }, none)

/-- Embeds `SearchServer::GetDocumentCount` (search_server.cpp:39). -/
def getDocumentCount (s : SearchServer) : Nat :=
  s.documents.length

/-- Embeds `SearchServer::GetWordFrequencies` (search_server.cpp:43): the forward
entry of the document, or the empty map when absent; never fails. -/
def getWordFrequencies (s : SearchServer) (id : Int) : SMap String ℚ :=
  (mFind? id s.documentToWordFreqs).getD []

/-- One step of the inverted-cleanup loop of `RemoveDocument`
(search_server.cpp:57): `word_to_document_freqs_.at(word).erase(id)`. In any
state satisfying the mirror invariant the word is present in the inverted
index; the (unreachable) `at` miss is embedded as leaving the index
unchanged. -/
def eraseFromInverted (inv : SMap String (SMap Int ℚ)) (w : String) (id : Int) :
    SMap String (SMap Int ℚ) :=
  match mFind? w inv with
  | none => inv
  | some pm => mSet inv w (mErase pm id)

/-- Plain `SearchServer::RemoveDocument` (search_server.cpp:52). It first
erases `documents_` and `document_ids_`, then reads
`document_to_word_freqs_.at(id)`, which throws `std::out_of_range` when the
forward entry is absent — with the first two erasures retained. The `Bool`
records whether the exception escaped. -/
def removeDocumentPlain (s : SearchServer) (id : Int) : SearchServer × Bool :=
  let s1 := { s with
    documents := mErase s.documents id,
    documentIds := sErase s.documentIds id }
  match mFind? id s.documentToWordFreqs with
  | none => (s1, true)
  | some wm =>
    ({ s1 with
        wordToDocumentFreqs := wm.foldl (fun inv e => eraseFromInverted inv e.1 id)
          s.wordToDocumentFreqs,
        documentToWordFreqs := mErase s.documentToWordFreqs id }, false)

/-- Execution-policy `SearchServer::RemoveDocument` (search_server.h:188):
returns silently when the id is absent; otherwise reads
`document_to_word_freqs_.at(id)` (which throws, before any mutation, for a
live document with no forward entry) and then erases the postings of every
word of the document, the forward entry, the metadata and the live id. The
parallel and sequential instantiations perform the same erasures. -/
def removeDocumentPolicy (s : SearchServer) (id : Int) : SearchServer × Bool :=
  if ¬ mContains s.documents id then (s, false)
  else
    match mFind? id s.documentToWordFreqs with
    | none => (s, true)
    | some wm =>
      ({ s with
          wordToDocumentFreqs := wm.foldl (fun inv e => eraseFromInverted inv e.1 id)
            s.wordToDocumentFreqs,
          documentToWordFreqs := mErase s.documentToWordFreqs id,
          documents := mErase s.documents id,
          documentIds := sErase s.documentIds id }, false)

/-- Embeds `SearchServer::QueryWord` (search_server.h:94). -/
structure QueryWord : Type where
  data : String
  isMinus : Bool
  isStop : Bool
deriving DecidableEq, Repr

/-- Embeds `SearchServer::Query` (part_001:104): plus and minus words collected as
vectors in token order. -/
structure Query : Type where
  plusWords : List String
  minusWords : List String
deriving DecidableEq, Repr

/-- Embeds `SearchServer::ParseQueryWord` (search_server.cpp:177): empty word,
double leading minus, bare minus and control characters all throw
(`none`); otherwise the minus flag is stripped and stop-word membership
recorded. -/
def parseQueryWord (s : SearchServer) (text : String) : Option QueryWord :=
  match text.toList with
  | [] => none
  | c :: rest =>
    let body : List Char := if c = '-' then rest else c :: rest
    match body with
    | [] => none
    | c2 :: _ =>
      if c2 = '-' ∨ ¬ isValidWord (String.mk body) then none
      else some ⟨String.mk body, decide (c = '-'), isStopWord s (String.mk body)⟩

/-- One token of the query-collection loop of `ParseQuery`
(part_001:248): stop words are dropped, the rest pushed onto the plus or
minus vector. -/
def parseQueryChunk (s : SearchServer) (acc : Option Query) (w : String) : Option Query :=
  match acc with
  | none => none
  | some q =>
    match parseQueryWord s w with
    | none => none
    | some qw =>
      if qw.isStop then some q
      else if qw.isMinus then some ⟨q.plusWords, q.minusWords ++ [qw.data]⟩
      else some ⟨q.plusWords ++ [qw.data], q.minusWords⟩

/-- The collection phase of `ParseQuery` (part_001:246), before any
deduplication. -/
def parseQueryRaw (s : SearchServer) (text : String) : Option Query :=
  (splitIntoWords text).foldl (parseQueryChunk s) (some (Query.mk [] []))

/-- Embeds `std::unique` on a sorted vector: drop adjacent duplicates. -/
def dedupAdj : List String → List String
  | [] => []
  | [a] => [a]
  | a :: b :: t => if a = b then dedupAdj (b :: t) else a :: dedupAdj (b :: t)

/-- Insertion into an ascending string vector, `std::sort` building block. -/
def strInsert (a : String) : List String → List String
  | [] => [a]
  | b :: t => if a < b then a :: b :: t else b :: strInsert a t

/-- Embeds `std::sort` with `operator<` on strings, embedded as insertion sort. -/
def strSort : List String → List String
  | [] => []
  | a :: t => strInsert a (strSort t)

/-- Embeds `SearchServer::DeleteCopy` (search_server.cpp:194): sort then erase
adjacent duplicates. -/
def deleteCopy (l : List String) : List String :=
  dedupAdj (strSort l)

/-- Embeds `ParseQuery` under the sequenced policy (part_001:246 with the
`if constexpr` branch taken): collect, then `DeleteCopy` both vectors. -/
def parseQuerySeq (s : SearchServer) (text : String) : Option Query :=
  (parseQueryRaw s text).map fun q => ⟨deleteCopy q.plusWords, deleteCopy q.minusWords⟩

/-- Embeds `MAX_RESULT_DOCUMENT_COUNT` (main.cpp:15). -/
def MAX_RESULT_DOCUMENT_COUNT : Nat := 5

/-- Embeds `EPSILON` (part_001:24, main.cpp:17). -/
def EPSILON : ℚ := 1 / 1000000

/-- Embeds `std::abs` on the embedded `double`. -/
def ratAbs (x : ℚ) : ℚ := if x < 0 then -x else x

/-- The comparator handed to `sort` by `FindTopDocuments`
(search_server.h:137): relevances within `EPSILON` are tied and compared by
rating, otherwise by relevance, both descending. -/
def docBefore (a b : Document) : Bool :=
  if ratAbs (a.relevance - b.relevance) < EPSILON then decide (b.rating < a.rating)
  else decide (b.relevance < a.relevance)

/-- Embeds `docBefore` as a relation, to feed the sort. -/
def DocBeforeR (a b : Document) : Prop := docBefore a b = true

instance : DecidableRel DocBeforeR := fun a b => inferInstanceAs (Decidable (docBefore a b = true))

/-- Insertion step of the result sort. -/
def docInsert (a : Document) : List Document → List Document
  | [] => [a]
  | b :: t => if docBefore a b then a :: b :: t else b :: docInsert a t

/-- Embeds `std::sort` with the `docBefore` comparator, embedded as insertion sort
(the comparator is not a strict weak ordering, so the C++ sort is
implementation-defined; insertion sort is the deterministic embedding). -/
def docSort : List Document → List Document
  | [] => []
  | a :: t => docInsert a (docSort t)

/-- Embeds `SearchServer::ComputeWordInverseDocumentFreq` (search_server.cpp:203)
for a word whose posting map is `pm`: `LOG` stands for `std::log`. -/
def wordIdf (LOG : ℚ → ℚ) (s : SearchServer) (pm : SMap Int ℚ) : ℚ :=
  LOG ((getDocumentCount s : ℚ) / (pm.length : ℚ))

/-- The plus-word accumulation step of the sequential `FindAllDocuments`
(search_server.h:217): for every posting of a present plus word whose
document passes the predicate, add `tf * idf` to the document's relevance. -/
def accumulateWord (LOG : ℚ → ℚ) (s : SearchServer)
    (pred : Int → DocumentStatus → Int → Bool) (m : SMap Int ℚ) (w : String) :
    SMap Int ℚ :=
  match mFind? w s.wordToDocumentFreqs with
  | none => m
  | some pm =>
    pm.foldl (fun m e =>
      if pred e.1 ((mFind? e.1 s.documents).getD ⟨0, .ACTUAL⟩).status
          ((mFind? e.1 s.documents).getD ⟨0, .ACTUAL⟩).rating
        then mAdd m e.1 (e.2 * wordIdf LOG s pm) else m) m

/-- The minus-word pass of `FindAllDocuments` (search_server.h:230): every
document posted under a present minus word is erased from the relevance
map. -/
def eraseMinusWord (s : SearchServer) (m : SMap Int ℚ) (w : String) : SMap Int ℚ :=
  match mFind? w s.wordToDocumentFreqs with
  | none => m
  | some pm => pm.foldl (fun m e => mErase m e.1) m

/-- Materialisation of the surviving relevance map into `Document` records
(search_server.h:239), in ascending id order — the iteration order of
`std::map`. -/
def materialize (s : SearchServer) (m : SMap Int ℚ) : List Document :=
  m.map fun e => ⟨e.1, e.2, ((mFind? e.1 s.documents).getD ⟨0, .ACTUAL⟩).rating⟩

/-- Sequential `SearchServer::FindAllDocuments` (search_server.h:214). -/
def findAllDocumentsSeq (LOG : ℚ → ℚ) (s : SearchServer) (q : Query)
    (pred : Int → DocumentStatus → Int → Bool) : List Document :=
  materialize s (q.minusWords.foldl (eraseMinusWord s)
    (q.plusWords.foldl (accumulateWord LOG s pred) []))

/-- Modelled from the spec (the repository's `concurrent_map.h` is not under
src): `ConcurrentMap` keeps a fixed number `n` of shards and maps a key to
its shard by modulo; `operator[].ref_to_value += δ` accumulates into the
key's shard. -/
def cmapAdd (n : Nat) (shards : List (SMap Int ℚ)) (k : Int) (δ : ℚ) :
    List (SMap Int ℚ) :=
  let i := k.natAbs % n
  shards.set i (mAdd (shards.getD i []) k δ)

/-- Plus-word accumulation of the parallel `FindAllDocuments`
(part_001:209), writing through the sharded `ConcurrentMap`. -/
def accumulateWordPar (n : Nat) (LOG : ℚ → ℚ) (s : SearchServer)
    (pred : Int → DocumentStatus → Int → Bool) (shards : List (SMap Int ℚ))
    (w : String) : List (SMap Int ℚ) :=
  match mFind? w s.wordToDocumentFreqs with
  | none => shards
  | some pm =>
    pm.foldl (fun sh e =>
      if pred e.1 ((mFind? e.1 s.documents).getD ⟨0, .ACTUAL⟩).status
          ((mFind? e.1 s.documents).getD ⟨0, .ACTUAL⟩).rating
        then cmapAdd n sh e.1 (e.2 * wordIdf LOG s pm) else sh) shards

/-- Modelled from the spec: `ConcurrentMap::BuildOrdinaryMap` drains all
shards into one ordered map (part_001:223). -/
def buildOrdinaryMap (shards : List (SMap Int ℚ)) : SMap Int ℚ :=
  shards.foldl (fun acc sh => sh.foldl (fun acc e => mSet acc e.1 e.2) acc) []

/-- Parallel `SearchServer::FindAllDocuments` (part_001:205) with `n`
shards (`500` at part_001:207, `3` at search_server.h:248). -/
def findAllDocumentsPar (n : Nat) (LOG : ℚ → ℚ) (s : SearchServer) (q : Query)
    (pred : Int → DocumentStatus → Int → Bool) : List Document :=
  materialize s (q.minusWords.foldl (eraseMinusWord s)
    (buildOrdinaryMap (q.plusWords.foldl (accumulateWordPar n LOG s pred)
      (List.replicate n []))))

/-- Sequential `SearchServer::FindTopDocuments` (part_001:136 with the
sequenced policy): parse (which deduplicates), score, sort with the
epsilon/rating comparator, truncate to `MAX_RESULT_DOCUMENT_COUNT`. -/
def findTopDocumentsSeq (LOG : ℚ → ℚ) (s : SearchServer) (raw : String)
    (pred : Int → DocumentStatus → Int → Bool) : Option (List Document) :=
  (parseQuerySeq s raw).map fun q =>
    (docSort (findAllDocumentsSeq LOG s q pred)).take MAX_RESULT_DOCUMENT_COUNT

/-- Parallel `SearchServer::FindTopDocuments` (part_001:136 with the
parallel policy): parse without deduplication, `DeleteCopy` both vectors
(part_001:142), score through the `ConcurrentMap`, sort, truncate. -/
def findTopDocumentsPar (n : Nat) (LOG : ℚ → ℚ) (s : SearchServer) (raw : String)
    (pred : Int → DocumentStatus → Int → Bool) : Option (List Document) :=
  (parseQueryRaw s raw).map fun q0 =>
    let q : Query := ⟨deleteCopy q0.plusWords, deleteCopy q0.minusWords⟩
    (docSort (findAllDocumentsPar n LOG s q pred)).take MAX_RESULT_DOCUMENT_COUNT

/-- Errors of `MatchDocument`: unknown id (search_server.cpp:67) or a
malformed query. -/
inductive MatchErr : Type
  | outOfRange
  | invalidQuery
deriving DecidableEq, Repr

/-- Plain (sequential) `SearchServer::MatchDocument` (search_server.cpp:64):
errors on a non-live id; returns the empty list as soon as any minus word's
postings contain the id, otherwise the plus words whose postings contain
it, paired with the document's status. -/
def matchDocument (s : SearchServer) (raw : String) (id : Int) :
    Except MatchErr (List String × DocumentStatus) :=
  if ¬ decide (id ∈ s.documentIds) then .error .outOfRange
  else
    match parseQuerySeq s raw with
    | none => .error .invalidQuery
    | some q =>
      let st := ((mFind? id s.documents).getD ⟨0, .ACTUAL⟩).status
      if q.minusWords.any (fun w => (mFind2 s.wordToDocumentFreqs w id).isSome) then
        .ok ([], st)
      else
        .ok (q.plusWords.filter (fun w => (mFind2 s.wordToDocumentFreqs w id).isSome), st)

/-- Structural invariant of a live `SearchServer` state: all four containers
are sorted; the live-id set is exactly the key list of the metadata map;
every forward key has metadata; and the forward and inverted indices are
exact mirrors entry by entry. (Bounded quantifiers keep it decidable.) -/
def invariantHolds (s : SearchServer) : Prop :=
  mWF s.documents = true ∧
  mWF s.wordToDocumentFreqs = true ∧
  mWF s.documentToWordFreqs = true ∧
  (∀ e ∈ s.wordToDocumentFreqs, mWF e.2 = true) ∧
  (∀ e ∈ s.documentToWordFreqs, mWF e.2 = true) ∧
  s.documentIds = s.documents.map Prod.fst ∧
  (∀ e ∈ s.documentToWordFreqs, mContains s.documents e.1 = true) ∧
  (∀ e ∈ s.documentToWordFreqs, ∀ p ∈ e.2,
    mFind2 s.wordToDocumentFreqs p.1 e.1 = some p.2) ∧
  (∀ e ∈ s.wordToDocumentFreqs, ∀ p ∈ e.2,
    mFind2 s.documentToWordFreqs p.1 e.1 = some p.2)

instance (s : SearchServer) : Decidable (invariantHolds s) := by
  unfold invariantHolds; infer_instance

/-- The states reachable by constructing a server and running any sequence
of `AddDocument` and `RemoveDocument` calls (in every overload), whether
they succeed or throw: the post-state is carried in either case. -/
inductive Reachable : SearchServer → Prop
  | init (stop : List String) : Reachable (mkServer stop)
  | add (s : SearchServer) (id : Int) (text : String) (status : DocumentStatus)
      (ratings : List Int) : Reachable s → Reachable (addDocument s id text status ratings).1
  | removePlain (s : SearchServer) (id : Int) :
      Reachable s → Reachable (removeDocumentPlain s id).1
  | removePolicy (s : SearchServer) (id : Int) :
      Reachable s → Reachable (removeDocumentPolicy s id).1

/-- Pointwise mirror property between the inverted and the forward index. -/
def MirrorInv (inv : SMap String (SMap Int ℚ)) (fwd : SMap Int (SMap String ℚ)) : Prop :=
  ∀ w d, mFind2 inv w d = mFind2 fwd d w

/-- Well-formedness bundle for an (inverted, forward) index pair. -/
def IdxWF (p : SMap String (SMap Int ℚ) × SMap Int (SMap String ℚ)) : Prop :=
  mWF p.1 = true ∧ mWF p.2 = true ∧
  (∀ e ∈ p.1, mWF e.2 = true) ∧ (∀ e ∈ p.2, mWF e.2 = true)

/-- Concrete server with one live document, used by several witnesses. -/
def c1Server : SearchServer :=
  (addDocument (mkServer []) 1 "cat" DocumentStatus.ACTUAL [2]).1

/-- Concrete server with one live two-word document, used by witnesses. -/
def c2Server : SearchServer :=
  (addDocument (mkServer ["in"]) 42 "cat in city" DocumentStatus.ACTUAL [1, 2, 3]).1

/-- Concrete server with one live one-word document, used by witnesses. -/
def c4Server : SearchServer :=
  (addDocument (mkServer []) 42 "city" DocumentStatus.ACTUAL [1, 2, 3]).1

/-- Concrete server with a live stop-words-only document. -/
def c10Server : SearchServer :=
  (addDocument (mkServer ["a"]) 1 "a" DocumentStatus.ACTUAL []).1

/-- Logarithm instantiation for the C5 counterexample: rational values
realising an epsilon-chain of scores (the logarithm is an uninterpreted
parameter of this embedding; score profiles of this shape arise from real
logarithms on sufficiently large corpora, since tf-idf scores are dense). -/
def c5LOG : ℚ → ℚ := fun t =>
  if t = 6 then 1 - 3 / 2000000
  else if t = 3 then 1 - 9 / 10000000
  else if t = 2 then 1
  else 0

/-- The status filter of the default search path. -/
def c5Pred : Int → DocumentStatus → Int → Bool := fun _ st _ =>
  st == DocumentStatus.ACTUAL

/-- Six-document server for the C5 counterexample: three ACTUAL one-word
documents with ratings 5, 1, 0, plus BANNED filler documents adjusting the
document frequencies of the three words to 1, 2 and 3. -/
def c5Server : SearchServer :=
  (addDocument (addDocument (addDocument (addDocument (addDocument (addDocument
    (mkServer []) 1 "aa" DocumentStatus.ACTUAL [5]).1
    2 "bb" DocumentStatus.ACTUAL [1]).1
    3 "cc" DocumentStatus.ACTUAL [0]).1
    4 "bb" DocumentStatus.BANNED [0]).1
    5 "cc" DocumentStatus.BANNED [0]).1
    6 "cc" DocumentStatus.BANNED [0]).1

/-- The list returned by `FindTopDocuments` in the C5 counterexample: the
head's score is smaller than the last element's score by more than
`EPSILON`, yet the head is listed first through the chain of pairwise
epsilon-ties the comparator created. -/
def c5Result : List Document :=
  [⟨1, 1 - 3 / 2000000, 5⟩, ⟨2, 1 - 9 / 10000000, 1⟩, ⟨3, 1, 0⟩]

/-- Simulation relation between the sharded `ConcurrentMap` state of the
parallel scorer and the flat relevance map of the sequential scorer: right
length, all shards well-formed, every shard holds only keys hashing to its
position, and lookup through the owning shard agrees with the flat map. -/
def ShardRel (n : Nat) (shards : List (SMap Int ℚ)) (flat : SMap Int ℚ) : Prop :=
  shards.length = n ∧ mWF flat = true ∧
  (∀ sh ∈ shards, mWF sh = true) ∧
  (∀ i : Nat, ∀ hi : i < shards.length, ∀ k : Int,
    (mFind? k shards[i]).isSome = true → k.natAbs % n = i) ∧
  (∀ k : Int, ∀ hk : k.natAbs % n < shards.length,
    mFind? k shards[k.natAbs % n] = mFind? k flat)

section MapLemmas

variable [LinearOrder κ] [DecidableEq κ]

theorem mFind?_mSet (m : SMap κ α) (k k' : κ) (v : α) :
    mFind? k' (mSet m k v) = if k' = k then some v else mFind? k' m := by
  induction m with
  | nil =>
    rcases eq_or_ne k' k with rfl | hne
    · simp [mSet, mFind?]
    · simp [mSet, mFind?, hne, Ne.symm hne]
  | cons e t ih =>
    by_cases h1 : k < e.1
    · rcases eq_or_ne k' k with rfl | hne
      · simp [mSet, if_pos h1, mFind?]
      · simp [mSet, if_pos h1, mFind?, hne, Ne.symm hne]
    · by_cases h2 : k = e.1
      · rcases eq_or_ne k' k with rfl | hne
        · simp [mSet, if_neg h1, if_pos h2, mFind?]
        · have h4 : ¬ e.1 = k' := fun hh => hne (h2.trans hh).symm
          simp [mSet, if_neg h1, if_pos h2, mFind?, hne, Ne.symm hne, h4]
      · simp only [mSet, if_neg h1, if_neg h2, mFind?]
        by_cases h3 : e.1 = k'
        · have hne : ¬ k' = k := fun hh => h2 ((hh ▸ h3 : e.1 = k)).symm
          simp [h3, hne]
        · simp [h3, ih]

theorem mFind?_mErase (m : SMap κ α) (k k' : κ) :
    mFind? k' (mErase m k) = if k' = k then none else mFind? k' m := by
  induction m with
  | nil => simp [mErase, mFind?]
  | cons e t ih =>
    by_cases h1 : e.1 = k
    · subst h1
      simp only [mErase, if_pos rfl]
      rcases eq_or_ne k' e.1 with rfl | hne
      · simp [ih]
      · simp [mFind?, ih, hne, Ne.symm hne]
    · simp only [mErase, if_neg h1, mFind?]
      by_cases h2 : e.1 = k'
      · have hne : ¬ k' = k := fun hh => h1 (h2.trans hh)
        simp [h2, hne]
      · simp [h2, ih]

theorem mFind?_eq_none_iff (m : SMap κ α) (k : κ) :
    mFind? k m = none ↔ k ∉ m.map Prod.fst := by
  induction m with
  | nil => simp [mFind?]
  | cons e t ih =>
    by_cases h : e.1 = k
    · simp [mFind?, h]
    · have : ¬ k = e.1 := fun hh => h hh.symm
      simp [mFind?, h, this, ih]

theorem mFind?_eq_some_mem (m : SMap κ α) (k : κ) (v : α)
    (h : mFind? k m = some v) : (k, v) ∈ m := by
  induction m with
  | nil => simp [mFind?] at h
  | cons e t ih =>
    by_cases h1 : e.1 = k
    · simp only [mFind?, if_pos h1] at h
      have hv : e.2 = v := Option.some.inj h
      have he : (k, v) = e := by
        obtain ⟨a, b⟩ := e
        simp only at h1 hv
        rw [← h1, ← hv]
      rw [he]
      exact List.mem_cons_self _ _
    · simp only [mFind?, if_neg h1] at h
      exact List.mem_cons_of_mem _ (ih h)

theorem mErase_of_absent (m : SMap κ α) (k : κ) (h : mFind? k m = none) :
    mErase m k = m := by
  induction m with
  | nil => rfl
  | cons e t ih =>
    by_cases h1 : e.1 = k
    · simp [mFind?, h1] at h
    · simp only [mFind?, if_neg h1] at h
      simp [mErase, h1, ih h]

theorem mErase_sublist (m : SMap κ α) (k : κ) : List.Sublist (mErase m k) m := by
  induction m with
  | nil => simp [mErase]
  | cons e t ih =>
    by_cases h1 : e.1 = k
    · simp only [mErase, if_pos h1]
      exact ih.cons e
    · simp only [mErase, if_neg h1]
      exact ih.cons₂ e

theorem sErase_sublist (l : List κ) (k : κ) : List.Sublist (sErase l k) l := by
  induction l with
  | nil => simp [sErase]
  | cons a t ih =>
    by_cases h1 : a = k
    · simp only [sErase, if_pos h1]
      exact ih.cons a
    · simp only [sErase, if_neg h1]
      exact ih.cons₂ a

theorem mem_sInsert (l : List κ) (k a : κ) :
    a ∈ sInsert l k ↔ a = k ∨ a ∈ l := by
  induction l with
  | nil => simp [sInsert]
  | cons b t ih =>
    by_cases h1 : k < b
    · simp [sInsert, h1, List.mem_cons]
    · by_cases h2 : k = b
      · subst h2
        simp [sInsert, h1, List.mem_cons]
      · simp [sInsert, h1, h2, List.mem_cons, ih]
        tauto

theorem mem_sErase (l : List κ) (k a : κ) :
    a ∈ sErase l k ↔ a ∈ l ∧ a ≠ k := by
  induction l with
  | nil => simp [sErase]
  | cons b t ih =>
    by_cases h1 : b = k
    · subst h1
      have h3 : a = b → ¬ a ≠ b := fun hab hne => hne hab
      simp [sErase, ih, List.mem_cons]
      tauto
    · have h3 : a = b → a ≠ k := fun hab hak => h1 (hab ▸ hak)
      simp [sErase, h1, List.mem_cons, ih]
      tauto

theorem mem_mErase (m : SMap κ α) (k : κ) (e : κ × α) :
    e ∈ mErase m k ↔ e ∈ m ∧ e.1 ≠ k := by
  induction m with
  | nil => simp [mErase]
  | cons f t ih =>
    by_cases h1 : f.1 = k
    · have h3 : e = f → ¬ e.1 ≠ k := fun hef hne => hne (hef ▸ h1)
      simp only [mErase, if_pos h1, ih, List.mem_cons]
      tauto
    · have h3 : e = f → e.1 ≠ k := fun hef => hef ▸ h1
      simp only [mErase, if_neg h1, ih, List.mem_cons]
      tauto

theorem keys_mSet (m : SMap κ α) (k : κ) (v : α) :
    (mSet m k v).map Prod.fst = sInsert (m.map Prod.fst) k := by
  induction m with
  | nil => simp [mSet, sInsert]
  | cons e t ih =>
    by_cases h1 : k < e.1
    · simp [mSet, sInsert, h1]
    · by_cases h2 : k = e.1
      · simp [mSet, sInsert, h1, h2]
      · simp [mSet, sInsert, h1, h2, ih]

theorem keys_mErase (m : SMap κ α) (k : κ) :
    (mErase m k).map Prod.fst = sErase (m.map Prod.fst) k := by
  induction m with
  | nil => simp [mErase, sErase]
  | cons e t ih =>
    by_cases h1 : e.1 = k
    · simp [mErase, sErase, h1, ih]
    · simp [mErase, sErase, h1, ih]

theorem chainLt_iff_chain : ∀ l : List κ, chainLt l = true ↔ List.Chain' (· < ·) l
  | [] => by simp [chainLt]
  | [a] => by simp [chainLt]
  | a :: b :: t => by
    rw [List.chain'_cons]
    simp only [chainLt, Bool.and_eq_true, decide_eq_true_eq,
      chainLt_iff_chain (b :: t)]

theorem chainLt_iff_pairwise (l : List κ) :
    chainLt l = true ↔ List.Pairwise (· < ·) l := by
  rw [chainLt_iff_chain, List.chain'_iff_pairwise]

theorem chainLt_sInsert (l : List κ) (k : κ) (h : chainLt l = true) :
    chainLt (sInsert l k) = true := by
  rw [chainLt_iff_pairwise] at h ⊢
  induction l with
  | nil => simp [sInsert]
  | cons b t ih =>
    rw [List.pairwise_cons] at h
    obtain ⟨hb, ht⟩ := h
    by_cases h1 : k < b
    · simp only [sInsert, if_pos h1]
      refine List.Pairwise.cons ?_ (List.Pairwise.cons hb ht)
      intro x hx
      rcases List.mem_cons.mp hx with hxb | hxt
      · exact hxb ▸ h1
      · exact lt_trans h1 (hb x hxt)
    · by_cases h2 : k = b
      · simp only [sInsert, if_neg h1, if_pos h2]
        exact List.Pairwise.cons hb ht
      · simp only [sInsert, if_neg h1, if_neg h2]
        refine List.Pairwise.cons ?_ (ih ht)
        intro x hx
        rcases (mem_sInsert t k x).mp hx with hxk | hxt
        · subst hxk
          rcases lt_trichotomy x b with hh | hh | hh
          · exact absurd hh h1
          · exact absurd hh h2
          · exact hh
        · exact hb x hxt

theorem chainLt_sErase (l : List κ) (k : κ) (h : chainLt l = true) :
    chainLt (sErase l k) = true := by
  rw [chainLt_iff_pairwise] at h ⊢
  exact h.sublist (sErase_sublist l k)

theorem mWF_mSet (m : SMap κ α) (k : κ) (v : α) (h : mWF m = true) :
    mWF (mSet m k v) = true := by
  unfold mWF at h ⊢
  rw [keys_mSet]
  exact chainLt_sInsert _ _ h

theorem mWF_mErase (m : SMap κ α) (k : κ) (h : mWF m = true) :
    mWF (mErase m k) = true := by
  unfold mWF at h ⊢
  rw [keys_mErase]
  exact chainLt_sErase _ _ h

theorem mem_mSet (m : SMap κ α) (k : κ) (v : α) (e : κ × α) (h : e ∈ mSet m k v) :
    e = (k, v) ∨ e ∈ m := by
  induction m with
  | nil => simpa [mSet] using h
  | cons f t ih =>
    by_cases h1 : k < f.1
    · simp only [mSet, if_pos h1, List.mem_cons] at h
      rcases h with h | h | h
      · exact Or.inl h
      · exact Or.inr (List.mem_cons.mpr (Or.inl h))
      · exact Or.inr (List.mem_cons.mpr (Or.inr h))
    · by_cases h2 : k = f.1
      · simp only [mSet, if_neg h1, if_pos h2, List.mem_cons] at h
        rcases h with h | h
        · exact Or.inl h
        · exact Or.inr (List.mem_cons.mpr (Or.inr h))
      · simp only [mSet, if_neg h1, if_neg h2, List.mem_cons] at h
        rcases h with h | h
        · exact Or.inr (List.mem_cons.mpr (Or.inl h))
        · rcases ih h with h | h
          · exact Or.inl h
          · exact Or.inr (List.mem_cons.mpr (Or.inr h))

theorem mFind?_head_min (m : SMap κ α) (e : κ × α) (k : κ)
    (hwf : mWF (e :: m) = true) (h : (mFind? k (e :: m)).isSome = true) :
    e.1 ≤ k := by
  rw [mWF, chainLt_iff_pairwise, List.map_cons, List.pairwise_cons] at hwf
  by_cases h1 : e.1 = k
  · exact le_of_eq h1
  · simp only [mFind?, if_neg h1, Option.isSome] at h
    rcases hfind : mFind? k m with - | v
    · rw [hfind] at h; simp at h
    · have hk : k ∈ m.map Prod.fst := by
        have := mFind?_eq_some_mem m k v hfind
        exact List.mem_map.mpr ⟨(k, v), this, rfl⟩
      exact le_of_lt (hwf.1 k hk)

theorem mFind?_tail_none (m : SMap κ α) (e : κ × α)
    (hwf : mWF (e :: m) = true) : mFind? e.1 m = none := by
  rw [mWF, chainLt_iff_pairwise, List.map_cons, List.pairwise_cons] at hwf
  rw [mFind?_eq_none_iff]
  intro hmem
  exact absurd (hwf.1 e.1 hmem) (lt_irrefl e.1)

theorem mExt : ∀ m₁ m₂ : SMap κ α, mWF m₁ = true → mWF m₂ = true →
    (∀ k, mFind? k m₁ = mFind? k m₂) → m₁ = m₂
  | [], [], _, _, _ => rfl
  | [], e :: t, _, _, h => by
    have := h e.1
    simp [mFind?] at this
  | e :: t, [], _, _, h => by
    have := h e.1
    simp [mFind?] at this
  | e₁ :: t₁, e₂ :: t₂, h₁, h₂, h => by
    have hk₁ : mFind? e₁.1 (e₁ :: t₁) = some e₁.2 := by simp [mFind?]
    have hk₂ : mFind? e₂.1 (e₂ :: t₂) = some e₂.2 := by simp [mFind?]
    have hle₁ : e₂.1 ≤ e₁.1 := by
      refine mFind?_head_min t₂ e₂ e₁.1 h₂ ?_
      rw [← h e₁.1, hk₁]; rfl
    have hle₂ : e₁.1 ≤ e₂.1 := by
      refine mFind?_head_min t₁ e₁ e₂.1 h₁ ?_
      rw [h e₂.1, hk₂]; rfl
    have hkeq : e₁.1 = e₂.1 := le_antisymm hle₂ hle₁
    have hveq : e₁.2 = e₂.2 := by
      have := h e₁.1
      rw [hk₁] at this
      rw [hkeq] at this
      rw [hk₂] at this
      exact Option.some_injective _ this
    have heq : e₁ = e₂ := Prod.ext hkeq hveq
    have hwt₁ : mWF t₁ = true := by
      rw [mWF, chainLt_iff_pairwise] at h₁ ⊢
      rw [List.map_cons, List.pairwise_cons] at h₁
      exact h₁.2
    have hwt₂ : mWF t₂ = true := by
      rw [mWF, chainLt_iff_pairwise] at h₂ ⊢
      rw [List.map_cons, List.pairwise_cons] at h₂
      exact h₂.2
    have htl : t₁ = t₂ := by
      refine mExt t₁ t₂ hwt₁ hwt₂ ?_
      intro k
      by_cases hk : k = e₁.1
      · subst hk
        rw [mFind?_tail_none t₁ e₁ h₁]
        rw [hkeq, mFind?_tail_none t₂ e₂ h₂]
      · have := h k
        simp only [mFind?] at this
        have hne₁ : ¬ e₁.1 = k := fun hh => hk hh.symm
        have hne₂ : ¬ e₂.1 = k := fun hh => hk (hkeq.trans hh).symm
        rw [if_neg hne₁, if_neg hne₂] at this
        exact this
    rw [heq, htl]

theorem mFind?_mAdd (m : SMap κ ℚ) (k k' : κ) (δ : ℚ) :
    mFind? k' (mAdd m k δ) =
      if k' = k then some (((mFind? k m).getD 0) + δ) else mFind? k' m := by
  unfold mAdd
  rw [mFind?_mSet]

theorem mWF_nil : mWF ([] : SMap κ α) = true := rfl

theorem mWF_tail (e : κ × α) (m : SMap κ α) (h : mWF (e :: m) = true) :
    mWF m = true := by
  rw [mWF, chainLt_iff_pairwise] at h ⊢
  rw [List.map_cons, List.pairwise_cons] at h
  exact h.2

theorem mWF_mAdd (m : SMap κ ℚ) (k : κ) (δ : ℚ) (h : mWF m = true) :
    mWF (mAdd m k δ) = true :=
  mWF_mSet m k _ h

theorem mContains_iff_find (m : SMap κ α) (k : κ) :
    mContains m k = true ↔ (mFind? k m).isSome = true := Iff.rfl

theorem mContains_false_iff (m : SMap κ α) (k : κ) :
    mContains m k = false ↔ mFind? k m = none := by
  unfold mContains
  rcases mFind? k m <;> simp

theorem valuesSum_mSet (m : SMap κ ℚ) (k : κ) (v : ℚ) (h : mWF m = true) :
    valuesSum (mSet m k v) = valuesSum m + v - ((mFind? k m).getD 0) := by
  induction m with
  | nil => simp [mSet, valuesSum, mFind?]
  | cons e t ih =>
    by_cases h1 : k < e.1
    · have hnone : mFind? k (e :: t) = none := by
        rw [mFind?_eq_none_iff]
        intro hmem
        rw [mWF, chainLt_iff_pairwise] at h
        rcases List.mem_cons.mp hmem with hk | hk
        · exact absurd (hk ▸ h1) (lt_irrefl e.1)
        · rw [List.map_cons, List.pairwise_cons] at h
          exact absurd (lt_trans h1 (h.1 k hk)) (lt_irrefl k)
      simp only [mSet, if_pos h1, valuesSum, List.foldr, hnone]
      simp [valuesSum]
      ring
    · by_cases h2 : k = e.1
      · have : mFind? k (e :: t) = some e.2 := by
          simp [mFind?, h2.symm]
        simp only [mSet, if_neg h1, if_pos h2, valuesSum, List.foldr, this]
        simp
        ring
      · have h3 : ¬ e.1 = k := fun hh => h2 hh.symm
        simp only [mSet, if_neg h1, if_neg h2, valuesSum, List.foldr]
        have := ih (mWF_tail e t h)
        simp only [valuesSum] at this
        rw [this]
        simp [mFind?, h3]
        ring

theorem valuesSum_mAdd (m : SMap κ ℚ) (k : κ) (δ : ℚ) (h : mWF m = true) :
    valuesSum (mAdd m k δ) = valuesSum m + δ := by
  rw [mAdd, valuesSum_mSet m k _ h]
  ring

end MapLemmas

/-- Erasing an outer key hides exactly that key from two-level lookup. -/
theorem mFind2_mErase_outer {κ₂ : Type v} {β : Type u} [LinearOrder κ] [DecidableEq κ]
    [DecidableEq κ₂] (M : SMap κ (SMap κ₂ β)) (k a : κ) (b : κ₂) :
    mFind2 (mErase M k) a b = if a = k then none else mFind2 M a b := by
  unfold mFind2
  rw [mFind?_mErase]
  by_cases h : a = k <;> simp [h]

/-- Normal form for the two-level lookup: look the inner map up with an
empty-map default. -/
theorem mFind2_eq {κ₂ : Type v} {β : Type u} [DecidableEq κ] [DecidableEq κ₂]
    (M : SMap κ (SMap κ₂ β)) (a : κ) (b : κ₂) :
    mFind2 M a b = mFind? b ((mFind? a M).getD []) := by
  unfold mFind2
  rcases mFind? a M <;> simp [mFind?]

/-- A member of a well-formed map is found by lookup. -/
theorem mem_mFind? [LinearOrder κ] [DecidableEq κ] (m : SMap κ α) (k : κ) (v : α)
    (hwf : mWF m = true) (h : (k, v) ∈ m) : mFind? k m = some v := by
  induction m with
  | nil => cases h
  | cons e t ih =>
    rcases List.mem_cons.mp h with rfl | hmem
    · simp [mFind?]
    · have hne : ¬ e.1 = k := by
        intro hh
        rw [mWF, chainLt_iff_pairwise, List.map_cons, List.pairwise_cons] at hwf
        have hk : k ∈ t.map Prod.fst := List.mem_map.mpr ⟨(k, v), hmem, rfl⟩
        exact absurd (hh ▸ hwf.1 k hk) (lt_irrefl k)
      simp only [mFind?, if_neg hne]
      exact ih (mWF_tail e t hwf) hmem

/-- The bounded mirror conjuncts of `invariantHolds` give the pointwise
mirror property. -/
theorem mirror_of_inv (s : SearchServer) (h : invariantHolds s) :
    MirrorInv s.wordToDocumentFreqs s.documentToWordFreqs := by
  obtain ⟨-, -, -, -, -, -, -, hfi, hif⟩ := h
  intro w d
  rcases hinv : mFind2 s.wordToDocumentFreqs w d with - | f
  · rcases hfwd : mFind2 s.documentToWordFreqs d w with - | g
    · rfl
    · exfalso
      unfold mFind2 at hfwd
      rcases hd : mFind? d s.documentToWordFreqs with - | inner
      · rw [hd] at hfwd; cases hfwd
      · rw [hd] at hfwd
        have h1 := mFind?_eq_some_mem _ _ _ hd
        have h2 := mFind?_eq_some_mem _ _ _ hfwd
        have := hfi (d, inner) h1 (w, g) h2
        simp only at this
        rw [hinv] at this
        cases this
  · unfold mFind2 at hinv
    rcases hw : mFind? w s.wordToDocumentFreqs with - | pm
    · rw [hw] at hinv; cases hinv
    · rw [hw] at hinv
      have h1 := mFind?_eq_some_mem _ _ _ hw
      have h2 := mFind?_eq_some_mem _ _ _ hinv
      have := hif (w, pm) h1 (d, f) h2
      simp only at this
      exact this.symm

/-- Bounded mirror conjuncts from the pointwise mirror property, given
well-formedness of both indices. -/
theorem boundedMirror_of_mirror (inv : SMap String (SMap Int ℚ))
    (fwd : SMap Int (SMap String ℚ)) (h1 : mWF inv = true) (h2 : mWF fwd = true)
    (h3 : ∀ e ∈ fwd, mWF e.2 = true) (h4 : ∀ e ∈ inv, mWF e.2 = true)
    (hm : MirrorInv inv fwd) :
    (∀ e ∈ fwd, ∀ p ∈ e.2, mFind2 inv p.1 e.1 = some p.2) ∧
    (∀ e ∈ inv, ∀ p ∈ e.2, mFind2 fwd p.1 e.1 = some p.2) := by
  constructor
  · intro e he p hp
    rw [hm p.1 e.1]
    unfold mFind2
    have hfe : mFind? e.1 fwd = some e.2 := by
      refine mem_mFind? fwd e.1 e.2 h2 ?_
      simpa using he
    rw [hfe]
    refine mem_mFind? e.2 p.1 p.2 (h3 e he) ?_
    simpa using hp
  · intro e he p hp
    rw [← hm e.1 p.1]
    unfold mFind2
    have hfe : mFind? e.1 inv = some e.2 := by
      refine mem_mFind? inv e.1 e.2 h1 ?_
      simpa using he
    rw [hfe]
    refine mem_mFind? e.2 p.1 p.2 (h4 e he) ?_
    simpa using hp

/-- Effect of one `stepWord` on the inverted index, pointwise. -/
theorem stepWord_fst (id : Int) (δ : ℚ)
    (p : SMap String (SMap Int ℚ) × SMap Int (SMap String ℚ)) (w w' : String) (d' : Int) :
    mFind2 (stepWord id δ p w).1 w' d' =
      if w' = w ∧ d' = id then some (((mFind2 p.1 w id).getD 0) + δ)
      else mFind2 p.1 w' d' := by
  unfold stepWord
  rw [mFind2_eq, mFind?_mSet]
  by_cases h1 : w' = w
  · subst h1
    simp only [eq_self_iff_true, if_true, true_and, Option.getD_some]
    rw [mFind?_mAdd]
    by_cases h2 : d' = id
    · simp [h2, mFind2_eq]
    · simp [h2, mFind2_eq]
  · simp [h1, mFind2_eq]

/-- Effect of one `stepWord` on the forward index, pointwise. -/
theorem stepWord_snd (id : Int) (δ : ℚ)
    (p : SMap String (SMap Int ℚ) × SMap Int (SMap String ℚ)) (w : String) (d' : Int) (w' : String) :
    mFind2 (stepWord id δ p w).2 d' w' =
      if d' = id ∧ w' = w then some (((mFind2 p.2 id w).getD 0) + δ)
      else mFind2 p.2 d' w' := by
  unfold stepWord
  rw [mFind2_eq, mFind?_mSet]
  by_cases h1 : d' = id
  · subst h1
    simp only [eq_self_iff_true, if_true, true_and, Option.getD_some]
    rw [mFind?_mAdd]
    by_cases h2 : w' = w
    · simp [h2, mFind2_eq]
    · simp [h2, mFind2_eq]
  · simp [h1, mFind2_eq]

/-- The indexing loop of `AddDocument` preserves the pointwise mirror. -/
theorem foldStep_mirror (id : Int) (δ : ℚ) (ws : List String)
    (p : SMap String (SMap Int ℚ) × SMap Int (SMap String ℚ))
    (hm : MirrorInv p.1 p.2) :
    MirrorInv (ws.foldl (stepWord id δ) p).1 (ws.foldl (stepWord id δ) p).2 := by
  induction ws generalizing p with
  | nil => simpa using hm
  | cons w t ih =>
    rw [List.foldl_cons]
    refine ih _ ?_
    intro w' d'
    rw [stepWord_fst, stepWord_snd]
    have e1 := hm w' d'
    have e2 := hm w id
    have e3 := hm w d'
    have e4 := hm w' id
    by_cases h1 : w' = w <;> by_cases h2 : d' = id <;>
      simp [h1, h2, e1, e2, e3, e4]

theorem stepWord_wf (id : Int) (δ : ℚ)
    (p : SMap String (SMap Int ℚ) × SMap Int (SMap String ℚ)) (w : String)
    (h : IdxWF p) : IdxWF (stepWord id δ p w) := by
  obtain ⟨h1, h2, h3, h4⟩ := h
  refine ⟨mWF_mSet _ _ _ h1, mWF_mSet _ _ _ h2, ?_, ?_⟩
  · intro e he
    rcases mem_mSet _ _ _ _ he with rfl | he2
    · refine mWF_mAdd _ _ _ ?_
      rcases hf : mFind? w p.1 with - | inner
      · simp [hf, mWF_nil]
      · simp only [hf, Option.getD_some]
        exact h3 (w, inner) (mFind?_eq_some_mem _ _ _ hf)
    · exact h3 e he2
  · intro e he
    rcases mem_mSet _ _ _ _ he with rfl | he2
    · refine mWF_mAdd _ _ _ ?_
      rcases hf : mFind? id p.2 with - | inner
      · simp [hf, mWF_nil]
      · simp only [hf, Option.getD_some]
        exact h4 (id, inner) (mFind?_eq_some_mem _ _ _ hf)
    · exact h4 e he2

theorem foldStep_wf (id : Int) (δ : ℚ) (ws : List String)
    (p : SMap String (SMap Int ℚ) × SMap Int (SMap String ℚ))
    (h : IdxWF p) : IdxWF (ws.foldl (stepWord id δ) p) := by
  induction ws generalizing p with
  | nil => simpa using h
  | cons w t ih =>
    rw [List.foldl_cons]
    exact ih _ (stepWord_wf id δ p w h)

/-- The indexing loop only ever adds the new id as a forward key. -/
theorem foldStep_fwdKeys (id : Int) (δ : ℚ) (ws : List String)
    (p : SMap String (SMap Int ℚ) × SMap Int (SMap String ℚ)) (k : Int)
    (h : (mFind? k (ws.foldl (stepWord id δ) p).2).isSome = true) :
    k = id ∨ (mFind? k p.2).isSome = true := by
  induction ws generalizing p with
  | nil => exact Or.inr (by simpa using h)
  | cons w t ih =>
    rw [List.foldl_cons] at h
    rcases ih _ h with h1 | h1
    · exact Or.inl h1
    · unfold stepWord at h1
      rw [mFind?_mSet] at h1
      by_cases h2 : k = id
      · exact Or.inl h2
      · rw [if_neg h2] at h1
        exact Or.inr h1

/-- The forward row of the new id after the indexing loop is the fold of
`mAdd` over the words, starting from the row before the loop. -/
theorem foldStep_row (id : Int) (δ : ℚ) (ws : List String)
    (p : SMap String (SMap Int ℚ) × SMap Int (SMap String ℚ)) :
    (mFind? id (ws.foldl (stepWord id δ) p).2).getD [] =
      ws.foldl (fun row w => mAdd row w δ) ((mFind? id p.2).getD []) := by
  induction ws generalizing p with
  | nil => simp
  | cons w t ih =>
    rw [List.foldl_cons, List.foldl_cons, ih]
    unfold stepWord
    rw [mFind?_mSet]
    simp

/-- Pointwise effect of one inverted-cleanup step of `RemoveDocument`. -/
theorem eraseFromInverted_find (inv : SMap String (SMap Int ℚ)) (w₀ : String)
    (id : Int) (w : String) (d : Int) :
    mFind2 (eraseFromInverted inv w₀ id) w d =
      if w = w₀ ∧ d = id then none else mFind2 inv w d := by
  unfold eraseFromInverted
  rcases hf : mFind? w₀ inv with - | pm
  · by_cases h1 : w = w₀ ∧ d = id
    · rw [if_pos h1]
      unfold mFind2
      rw [h1.1, hf]
    · rw [if_neg h1]
  · rw [mFind2_eq, mFind?_mSet]
    by_cases h1 : w = w₀
    · subst h1
      simp only [eq_self_iff_true, if_true, true_and, Option.getD_some]
      rw [mFind?_mErase]
      by_cases h2 : d = id
      · simp [h2]
      · simp [h2, mFind2_eq, hf]
    · simp [h1, mFind2_eq]

/-- Pointwise effect of the whole inverted-cleanup loop of
`RemoveDocument`: every posting of the removed id under a word of its
forward row is gone, everything else untouched. -/
theorem removeLoop_find (id : Int) (wm : SMap String ℚ)
    (inv : SMap String (SMap Int ℚ)) (w : String) (d : Int) :
    mFind2 (wm.foldl (fun acc e => eraseFromInverted acc e.1 id) inv) w d =
      if d = id ∧ w ∈ wm.map Prod.fst then none else mFind2 inv w d := by
  induction wm generalizing inv with
  | nil => simp
  | cons e t ih =>
    rw [List.foldl_cons, ih, eraseFromInverted_find]
    by_cases h1 : d = id <;> by_cases h2 : w = e.1 <;>
      by_cases h3 : w ∈ t.map Prod.fst <;> simp [h1, h2, h3]

theorem eraseFromInverted_wf (inv : SMap String (SMap Int ℚ)) (w₀ : String)
    (id : Int) (h1 : mWF inv = true) (h2 : ∀ e ∈ inv, mWF e.2 = true) :
    mWF (eraseFromInverted inv w₀ id) = true ∧
      ∀ e ∈ eraseFromInverted inv w₀ id, mWF e.2 = true := by
  unfold eraseFromInverted
  rcases hf : mFind? w₀ inv with - | pm
  · exact ⟨h1, h2⟩
  · refine ⟨mWF_mSet _ _ _ h1, ?_⟩
    intro e he
    rcases mem_mSet _ _ _ _ he with rfl | he2
    · exact mWF_mErase _ _ (h2 (w₀, pm) (mFind?_eq_some_mem _ _ _ hf))
    · exact h2 e he2

theorem removeLoop_wf (id : Int) (wm : SMap String ℚ)
    (inv : SMap String (SMap Int ℚ)) (h1 : mWF inv = true)
    (h2 : ∀ e ∈ inv, mWF e.2 = true) :
    mWF (wm.foldl (fun acc e => eraseFromInverted acc e.1 id) inv) = true ∧
      ∀ e ∈ wm.foldl (fun acc e => eraseFromInverted acc e.1 id) inv,
        mWF e.2 = true := by
  induction wm generalizing inv with
  | nil => exact ⟨h1, h2⟩
  | cons f t ih =>
    rw [List.foldl_cons]
    obtain ⟨g1, g2⟩ := eraseFromInverted_wf inv f.1 id h1 h2
    exact ih _ g1 g2

/-- A freshly constructed server satisfies the invariant. -/
theorem invariant_mkServer (stop : List String) : invariantHolds (mkServer stop) := by
  refine ⟨rfl, rfl, rfl, ?_, ?_, rfl, ?_, ?_, ?_⟩ <;> simp [mkServer]

/-- Embeds `AddDocument` preserves the invariant, whether it succeeds or throws. -/
theorem invariant_addDocument (s : SearchServer) (id : Int) (text : String)
    (status : DocumentStatus) (ratings : List Int) (h : invariantHolds s) :
    invariantHolds (addDocument s id text status ratings).1 := by
  unfold addDocument
  by_cases h1 : id < 0 ∨ mContains s.documents id
  · simpa [h1] using h
  · rcases hsplit : splitIntoWordsNoStop s text with - | words
    · simpa [h1, hsplit] using h
    · simp only [if_neg h1, hsplit]
      obtain ⟨w1, w2, w3, w4, w5, w6, w7, w8, w9⟩ := h
      have hA := foldStep_wf id (1 / (words.length : ℚ)) words
        (s.wordToDocumentFreqs, s.documentToWordFreqs) ⟨w2, w3, w4, w5⟩
      obtain ⟨a1, a2, a3, a4⟩ := hA
      have hM := foldStep_mirror id (1 / (words.length : ℚ)) words
        (s.wordToDocumentFreqs, s.documentToWordFreqs)
        (mirror_of_inv s ⟨w1, w2, w3, w4, w5, w6, w7, w8, w9⟩)
      have hB := boundedMirror_of_mirror _ _ a1 a2 a4 a3 hM
      refine ⟨mWF_mSet _ _ _ w1, a1, a2, a3, a4, ?_, ?_, hB.1, hB.2⟩
      · simp only
        rw [keys_mSet, w6]
      · intro e he
        have hsome : (mFind? e.1 (words.foldl
            (stepWord id (1 / (words.length : ℚ)))
            (s.wordToDocumentFreqs, s.documentToWordFreqs)).2).isSome = true := by
          have hm := mem_mFind? _ e.1 e.2 a2 (by simpa using he)
          rw [hm]
          rfl
        rcases foldStep_fwdKeys _ _ _ _ _ hsome with hk | hk
        · unfold mContains
          simp only
          rw [mFind?_mSet, if_pos hk]
          rfl
        · rcases hold : mFind? e.1 s.documentToWordFreqs with - | inner
          · rw [hold] at hk; cases hk
          · have hc := w7 (e.1, inner) (mFind?_eq_some_mem _ _ _ hold)
            unfold mContains at hc ⊢
            simp only at hc ⊢
            rw [mFind?_mSet]
            by_cases hke : e.1 = id
            · rw [if_pos hke]; rfl
            · rw [if_neg hke]; exact hc

/-- The invariant is preserved by the state reached after a full removal
(the branch of both `RemoveDocument` overloads where the forward row
exists). -/
theorem invariant_removeCore (s : SearchServer) (id : Int) (wm : SMap String ℚ)
    (h : invariantHolds s) (hwm : mFind? id s.documentToWordFreqs = some wm) :
    invariantHolds ⟨s.stopWords, mErase s.documents id,
      wm.foldl (fun acc e => eraseFromInverted acc e.1 id) s.wordToDocumentFreqs,
      mErase s.documentToWordFreqs id, sErase s.documentIds id⟩ := by
  obtain ⟨w1, w2, w3, w4, w5, w6, w7, w8, w9⟩ := h
  have hmir := mirror_of_inv s ⟨w1, w2, w3, w4, w5, w6, w7, w8, w9⟩
  obtain ⟨r1, r2⟩ := removeLoop_wf id wm s.wordToDocumentFreqs w2 w4
  have hM : MirrorInv
      (wm.foldl (fun acc e => eraseFromInverted acc e.1 id) s.wordToDocumentFreqs)
      (mErase s.documentToWordFreqs id) := by
    intro w d
    rw [removeLoop_find, mFind2_mErase_outer]
    by_cases h1 : d = id
    · rw [if_pos h1]
      by_cases h2 : w ∈ wm.map Prod.fst
      · rw [if_pos ⟨h1, h2⟩]
      · rw [if_neg (fun hh => h2 hh.2), hmir w d, h1]
        unfold mFind2
        rw [hwm]
        rw [mFind?_eq_none_iff]
        exact h2
    · rw [if_neg h1, if_neg (fun hh => h1 hh.1)]
      exact hmir w d
  have hB := boundedMirror_of_mirror _ _ r1 (mWF_mErase _ _ w3)
    (fun e he => w5 e ((mem_mErase _ _ _).mp he).1) r2 hM
  refine ⟨mWF_mErase _ _ w1, r1, mWF_mErase _ _ w3, r2, ?_, ?_, ?_, hB.1, hB.2⟩
  · intro e he
    exact w5 e ((mem_mErase _ _ _).mp he).1
  · simp only
    rw [keys_mErase, w6]
  · intro e he
    obtain ⟨hmem, hne⟩ := (mem_mErase _ _ _).mp he
    have hc := w7 e hmem
    unfold mContains at hc ⊢
    simp only at hc ⊢
    rw [mFind?_mErase, if_neg hne]
    exact hc

/-- Plain `RemoveDocument` preserves the invariant, whether it returns or
throws. -/
theorem invariant_removePlain (s : SearchServer) (id : Int)
    (h : invariantHolds s) : invariantHolds (removeDocumentPlain s id).1 := by
  unfold removeDocumentPlain
  rcases hwm : mFind? id s.documentToWordFreqs with - | wm
  · simp only
    obtain ⟨w1, w2, w3, w4, w5, w6, w7, w8, w9⟩ := h
    refine ⟨mWF_mErase _ _ w1, w2, w3, w4, w5, ?_, ?_, w8, w9⟩
    · simp only
      rw [keys_mErase, w6]
    · intro e he
      have hne : e.1 ≠ id := by
        intro hh
        rw [mFind?_eq_none_iff] at hwm
        exact hwm (hh ▸ List.mem_map.mpr ⟨e, he, rfl⟩)
      have hc := w7 e he
      unfold mContains at hc ⊢
      simp only at hc ⊢
      rw [mFind?_mErase, if_neg hne]
      exact hc
  · simp only
    exact invariant_removeCore s id wm h hwm

/-- Policy `RemoveDocument` preserves the invariant, whether it returns or
throws. -/
theorem invariant_removePolicy (s : SearchServer) (id : Int)
    (h : invariantHolds s) : invariantHolds (removeDocumentPolicy s id).1 := by
  unfold removeDocumentPolicy
  by_cases h1 : ¬ mContains s.documents id
  · simpa [h1] using h
  · rcases hwm : mFind? id s.documentToWordFreqs with - | wm
    · simpa [h1, hwm] using h
    · simp only [h1, hwm, if_neg]
      simpa [h1] using invariant_removeCore s id wm h hwm

/-- Every reachable state satisfies the structural invariant. -/
theorem reachable_invariant (s : SearchServer) (h : Reachable s) :
    invariantHolds s := by
  induction h with
  | init stop => exact invariant_mkServer stop
  | add s id text status ratings hr ih => exact invariant_addDocument s id text status ratings ih
  | removePlain s id hr ih => exact invariant_removePlain s id ih
  | removePolicy s id hr ih => exact invariant_removePolicy s id ih

theorem c1Server_reachable : Reachable c1Server :=
  Reachable.add (mkServer []) 1 "cat" DocumentStatus.ACTUAL [2] (Reachable.init [])

theorem c2Server_reachable : Reachable c2Server :=
  Reachable.add (mkServer ["in"]) 42 "cat in city" DocumentStatus.ACTUAL [1, 2, 3]
    (Reachable.init ["in"])

theorem c10Server_reachable : Reachable c10Server :=
  Reachable.add (mkServer ["a"]) 1 "a" DocumentStatus.ACTUAL [] (Reachable.init ["a"])

theorem c4Server_reachable : Reachable c4Server :=
  Reachable.add (mkServer []) 42 "city" DocumentStatus.ACTUAL [1, 2, 3] (Reachable.init [])

theorem sErase_of_absent [DecidableEq κ] (l : List κ) (k : κ) (h : k ∉ l) :
    sErase l k = l := by
  induction l with
  | nil => rfl
  | cons a t ih =>
    have h1 : ¬ a = k := fun hh => h (hh ▸ List.mem_cons_self a t)
    simp only [sErase, if_neg h1]
    rw [ih fun hm => h (List.mem_cons_of_mem a hm)]

/-- Division of C++ `int` truncates toward zero: `Int.tdiv` equals the sign of
the dividend times the `Nat` quotient of the absolute value. -/
theorem tdiv_eq_sign_natAbs (a : Int) (n : Nat) :
    Int.tdiv a (n : Int) = a.sign * ((a.natAbs / n : ℕ) : Int) := by
  rcases a with m | m
  · cases m with
    | zero =>
      show Int.tdiv (Int.ofNat 0) (Int.ofNat n) = Int.sign (Int.ofNat 0) * _
      rw [show Int.sign (Int.ofNat 0) = 0 from rfl, zero_mul]
      show Int.ofNat (0 / n) = 0
      rw [Nat.zero_div]
      rfl
    | succ k =>
      show Int.tdiv (Int.ofNat (k + 1)) (Int.ofNat n) =
        Int.sign (Int.ofNat (k + 1)) * ((Int.natAbs (Int.ofNat (k + 1)) / n : ℕ) : Int)
      rw [show Int.sign (Int.ofNat (k + 1)) = 1 from rfl, one_mul,
        show Int.natAbs (Int.ofNat (k + 1)) = k + 1 from rfl]
      rfl
  · show Int.tdiv (Int.negSucc m) (Int.ofNat n) =
      Int.sign (Int.negSucc m) * ((Int.natAbs (Int.negSucc m) / n : ℕ) : Int)
    rw [show Int.sign (Int.negSucc m) = -1 from rfl,
      show Int.natAbs (Int.negSucc m) = m + 1 from rfl]
    show -(Int.ofNat ((m + 1) / n)) = -1 * (((m + 1) / n : ℕ) : Int)
    rw [neg_one_mul]
    rfl

/-- Claim C9: the stored rating is the integer average of the ratings with
division truncated toward zero (not floored), `0` for an empty rating list;
ratings `-1, 2, -4` yield `-1` (and `-1, 0` yields `0`, where flooring
would yield `-1`). -/
theorem claim_C9 :
    computeAverageRating [] = 0 ∧
    (∀ rs : List Int, rs ≠ [] →
      computeAverageRating rs =
        (rs.foldl (· + ·) 0).sign * (((rs.foldl (· + ·) 0).natAbs / rs.length : ℕ) : Int)) ∧
    computeAverageRating [-1, 2, -4] = -1 ∧
    computeAverageRating [-1, 0] = 0 := by
  refine ⟨rfl, ?_, by decide, by decide⟩
  intro rs hne
  rw [computeAverageRating, if_neg hne]
  exact tdiv_eq_sign_natAbs _ _

/-- Witness for C9 at the concrete rating list of the claim. -/
theorem claim_C9_witness :
    ([-1, 2, -4] : List Int) ≠ [] ∧
    computeAverageRating [-1, 2, -4] =
      (([-1, 2, -4] : List Int).foldl (· + ·) 0).sign *
        (((([-1, 2, -4] : List Int).foldl (· + ·) 0).natAbs /
          ([-1, 2, -4] : List Int).length : ℕ) : Int) :=
  ⟨by decide, claim_C9.2.1 [-1, 2, -4] (by decide)⟩

/-- Claim C7: `AddDocument` fails with `InvalidArgument` exactly when the id
is negative or already present, and any failure (including
`InvalidDocument` from a control character) leaves the whole state
unchanged. -/
theorem claim_C7 (s : SearchServer) (id : Int) (text : String)
    (status : DocumentStatus) (ratings : List Int) :
    ((addDocument s id text status ratings).2 = some AddErr.invalidArgument ↔
      id < 0 ∨ mContains s.documents id = true) ∧
    ((addDocument s id text status ratings).2 ≠ none →
      (addDocument s id text status ratings).1 = s) := by
  unfold addDocument
  by_cases h1 : id < 0 ∨ mContains s.documents id
  · refine ⟨iff_of_true ?_ h1, fun _ => ?_⟩ <;> simp [h1]
  · rcases hsplit : splitIntoWordsNoStop s text with - | words
    · refine ⟨iff_of_false ?_ h1, fun _ => ?_⟩ <;> simp [h1, hsplit]
    · refine ⟨iff_of_false ?_ h1, fun hc => absurd ?_ hc⟩ <;> simp [h1, hsplit]

theorem mFind?_isSome_iff [LinearOrder κ] [DecidableEq κ] (m : SMap κ α) (k : κ) :
    (mFind? k m).isSome = true ↔ k ∈ m.map Prod.fst := by
  constructor
  · intro hs
    rcases hf : mFind? k m with - | v
    · rw [hf] at hs
      cases hs
    · exact List.mem_map.mpr ⟨(k, v), mFind?_eq_some_mem _ _ _ hf, rfl⟩
  · intro hmem
    rcases hf : mFind? k m with - | v
    · rw [mFind?_eq_none_iff] at hf
      exact absurd hmem hf
    · rfl

/-- Folding `erase` over the entries of a posting map removes exactly its
keys from the relevance map. -/
theorem eraseKeysFold_find (pm : SMap Int ℚ) (m : SMap Int ℚ) (k : Int) :
    mFind? k (pm.foldl (fun acc e => mErase acc e.1) m) =
      if k ∈ pm.map Prod.fst then none else mFind? k m := by
  induction pm generalizing m with
  | nil => simp
  | cons e t ih =>
    rw [List.foldl_cons, ih, mFind?_mErase]
    by_cases h1 : k ∈ t.map Prod.fst <;> by_cases h2 : k = e.1 <;> simp [h1, h2]

/-- Pointwise effect of one minus-word pass of `FindAllDocuments`. -/
theorem eraseMinusWord_find (s : SearchServer) (m : SMap Int ℚ) (w : String) (k : Int) :
    mFind? k (eraseMinusWord s m w) =
      if (mFind2 s.wordToDocumentFreqs w k).isSome = true then none
      else mFind? k m := by
  unfold eraseMinusWord
  rcases hf : mFind? w s.wordToDocumentFreqs with - | pm
  · rw [mFind2_eq, hf]
    simp [mFind?]
  · rw [eraseKeysFold_find, mFind2_eq, hf]
    rw [show (some pm).getD [] = pm from rfl]
    by_cases h1 : k ∈ pm.map Prod.fst
    · rw [if_pos h1, if_pos (((mFind?_isSome_iff pm k).mpr h1))]
    · rw [if_neg h1]
      have : ¬ (mFind? k pm).isSome = true := fun hh => h1 ((mFind?_isSome_iff pm k).mp hh)
      rw [if_neg this]

/-- Once a document is gone from the relevance map (or a minus word with a
posting for it occurs in the list), the minus fold leaves it absent. -/
theorem minusFold_none (s : SearchServer) (ws : List String) (m : SMap Int ℚ) (id : Int)
    (h : mFind? id m = none ∨
      ∃ w ∈ ws, (mFind2 s.wordToDocumentFreqs w id).isSome = true) :
    mFind? id (ws.foldl (eraseMinusWord s) m) = none := by
  induction ws generalizing m with
  | nil =>
    rcases h with h | ⟨w, hw, -⟩
    · exact h
    · cases hw
  | cons w0 t ih =>
    rw [List.foldl_cons]
    apply ih
    rcases h with h | ⟨w, hw, hsome⟩
    · left
      rw [eraseMinusWord_find]
      by_cases h1 : (mFind2 s.wordToDocumentFreqs w0 id).isSome = true
      · rw [if_pos h1]
      · rw [if_neg h1]
        exact h
    · rcases List.mem_cons.mp hw with rfl | hwt
      · left
        rw [eraseMinusWord_find, if_pos hsome]
      · right
        exact ⟨w, hwt, hsome⟩

/-- The sequential `FindAllDocuments` omits every document posted under a
minus word of the query. -/
theorem findAllSeq_minus_absent (LOG : ℚ → ℚ) (s : SearchServer) (q : Query)
    (pred : Int → DocumentStatus → Int → Bool) (id : Int)
    (hminus : ∃ w ∈ q.minusWords, (mFind2 s.wordToDocumentFreqs w id).isSome = true) :
    ∀ doc ∈ findAllDocumentsSeq LOG s q pred, doc.id ≠ id := by
  intro doc hdoc hid
  unfold findAllDocumentsSeq materialize at hdoc
  rcases List.mem_map.mp hdoc with ⟨e, he, hde⟩
  have hnone := minusFold_none s q.minusWords
    (q.plusWords.foldl (accumulateWord LOG s pred) []) id (Or.inr hminus)
  have hsome : (mFind? id (q.minusWords.foldl (eraseMinusWord s)
      (q.plusWords.foldl (accumulateWord LOG s pred) []))).isSome = true := by
    rw [mFind?_isSome_iff]
    refine List.mem_map.mpr ⟨e, he, ?_⟩
    rw [← hde] at hid
    exact hid
  rw [hnone] at hsome
  cases hsome

theorem docInsert_perm (a : Document) (l : List Document) :
    List.Perm (docInsert a l) (a :: l) := by
  induction l with
  | nil => exact List.Perm.refl _
  | cons b t ih =>
    unfold docInsert
    by_cases h : docBefore a b
    · rw [if_pos h]
    · rw [if_neg h]
      exact (ih.cons b).trans (List.Perm.swap a b t)

theorem docSort_perm (l : List Document) : List.Perm (docSort l) l := by
  induction l with
  | nil => exact List.Perm.refl _
  | cons a t ih =>
    unfold docSort
    exact (docInsert_perm a (docSort t)).trans (ih.cons a)

/-- Membership in the truncated sorted result comes from membership in the
unsorted scored list. -/
theorem mem_of_mem_topFilter (l : List Document) (n : Nat) (doc : Document)
    (h : doc ∈ (docSort l).take n) : doc ∈ l :=
  (docSort_perm l).mem_iff.mp (List.Sublist.mem h (List.take_sublist n (docSort l)))

/-- Claim C4: a live document containing any minus word of the query is
absent from `FindTopDocuments` results for every predicate (and every
logarithm), and `MatchDocument` returns the empty matched-word list paired
with the document's status, regardless of plus-word overlap. -/
theorem claim_C4 (s : SearchServer) (id : Int) (w : String) (raw : String)
    (q : Query) (dd : DocumentData)
    (h : invariantHolds s)
    (hdd : mFind? id s.documents = some dd)
    (hq : parseQuerySeq s raw = some q)
    (hw : w ∈ q.minusWords)
    (hocc : (mFind2 s.documentToWordFreqs id w).isSome = true) :
    (∀ LOG : ℚ → ℚ, ∀ pred : Int → DocumentStatus → Int → Bool,
      ∀ res : List Document,
        findTopDocumentsSeq LOG s raw pred = some res → ∀ doc ∈ res, doc.id ≠ id) ∧
    matchDocument s raw id = Except.ok ([], dd.status) := by
  have hinvocc : (mFind2 s.wordToDocumentFreqs w id).isSome = true := by
    rw [mirror_of_inv s h w id]
    exact hocc
  have hminus : ∃ w2 ∈ q.minusWords,
      (mFind2 s.wordToDocumentFreqs w2 id).isSome = true := ⟨w, hw, hinvocc⟩
  have hlive : id ∈ s.documentIds := by
    obtain ⟨-, -, -, -, -, w6, -, -, -⟩ := h
    rw [w6]
    exact List.mem_map.mpr ⟨(id, dd), mFind?_eq_some_mem _ _ _ hdd, rfl⟩
  constructor
  · intro LOG pred res hres doc hdoc
    unfold findTopDocumentsSeq at hres
    rw [hq] at hres
    simp only [Option.map_some'] at hres
    have hres2 := Option.some.inj hres
    rw [← hres2] at hdoc
    exact findAllSeq_minus_absent LOG s q pred id hminus doc
      (mem_of_mem_topFilter _ _ _ hdoc)
  · unfold matchDocument
    rw [if_neg (by simpa using hlive)]
    simp only [hq]
    have hany : (q.minusWords.any fun w2 =>
        (mFind2 s.wordToDocumentFreqs w2 id).isSome) = true :=
      List.any_eq_true.mpr ⟨w, hw, hinvocc⟩
    rw [if_pos hany, hdd]
    rfl

/-- Witness for C4: on a concrete server, the document containing the minus
word "city" yields the empty match list despite matching the plus word. -/
theorem claim_C4_witness :
    matchDocument c4Server "cat -city" 42 = Except.ok ([], DocumentStatus.ACTUAL) :=
  (claim_C4 c4Server 42 "city" "cat -city" ⟨["cat"], ["city"]⟩
    ⟨2, DocumentStatus.ACTUAL⟩
    (reachable_invariant c4Server c4Server_reachable)
    (by decide) (by decide) (by decide) (by decide)).2

/-- Under the invariant, an id without metadata has no forward row. -/
theorem fwd_none_of_not_doc (s : SearchServer) (id : Int) (h : invariantHolds s)
    (habs : mContains s.documents id = false) :
    mFind? id s.documentToWordFreqs = none := by
  obtain ⟨-, -, -, -, -, -, w7, -, -⟩ := h
  rw [mFind?_eq_none_iff]
  intro hmem
  rcases List.mem_map.mp hmem with ⟨e, he, hfe⟩
  have hc := w7 e he
  rw [hfe] at hc
  simp [habs] at hc

/-- The success branch of `AddDocument`, as an explicit state equation. -/
theorem addDocument_success_state (s : SearchServer) (id : Int) (text : String)
    (status : DocumentStatus) (ratings : List Int) (words : List String)
    (hguard : ¬ (id < 0 ∨ mContains s.documents id))
    (hsplit : splitIntoWordsNoStop s text = some words) :
    (addDocument s id text status ratings).1 =
      { s with
        wordToDocumentFreqs := (words.foldl (stepWord id (1 / (words.length : ℚ)))
          (s.wordToDocumentFreqs, s.documentToWordFreqs)).1,
        documentToWordFreqs := (words.foldl (stepWord id (1 / (words.length : ℚ)))
          (s.wordToDocumentFreqs, s.documentToWordFreqs)).2,
        documents := mSet s.documents id ⟨computeAverageRating ratings, status⟩,
        documentIds := sInsert s.documentIds id } := by
  unfold addDocument
  rw [if_neg hguard, hsplit]

/-- Folding `+= δ` over a word list adds `δ` per word to the row sum. -/
theorem rowFold_sum (δ : ℚ) (ws : List String) (row : SMap String ℚ)
    (h : mWF row = true) :
    valuesSum (ws.foldl (fun r w => mAdd r w δ) row) =
      valuesSum row + ws.length * δ ∧
    mWF (ws.foldl (fun r w => mAdd r w δ) row) = true := by
  induction ws generalizing row with
  | nil =>
    refine ⟨?_, h⟩
    simp
  | cons w t ih =>
    rw [List.foldl_cons]
    obtain ⟨ih1, ih2⟩ := ih (mAdd row w δ) (mWF_mAdd _ _ _ h)
    refine ⟨?_, ih2⟩
    rw [ih1, valuesSum_mAdd _ _ _ h]
    push_cast [List.length_cons]
    ring

/-- Claim C6: after a successful `AddDocument` with at least one non-stop
token, the values of `GetWordFrequencies(id)` sum to exactly `1` (in exact
rational arithmetic); for a document consisting entirely of stop words the
returned mapping is empty (sum `0`), and the document is live either way. -/
theorem claim_C6 (s : SearchServer) (id : Int) (text : String)
    (status : DocumentStatus) (ratings : List Int) (words : List String)
    (h : invariantHolds s)
    (hsplit : splitIntoWordsNoStop s text = some words)
    (hok : (addDocument s id text status ratings).2 = none) :
    (words ≠ [] →
      valuesSum (getWordFrequencies (addDocument s id text status ratings).1 id) = 1) ∧
    (words = [] →
      getWordFrequencies (addDocument s id text status ratings).1 id = []) ∧
    mContains (addDocument s id text status ratings).1.documents id = true := by
  have hguard : ¬ (id < 0 ∨ mContains s.documents id) := by
    intro hg
    unfold addDocument at hok
    rw [if_pos hg] at hok
    cases hok
  have habs : mContains s.documents id = false := by
    rcases hb : mContains s.documents id
    · rfl
    · exact absurd (Or.inr hb) hguard
  have hfwd0 : mFind? id s.documentToWordFreqs = none := fwd_none_of_not_doc s id h habs
  have hstate := addDocument_success_state s id text status ratings words hguard hsplit
  rw [hstate]
  have hrow := foldStep_row id (1 / (words.length : ℚ)) words
    (s.wordToDocumentFreqs, s.documentToWordFreqs)
  refine ⟨?_, ?_, ?_⟩
  · intro hne
    unfold getWordFrequencies
    rw [show ({ s with
        wordToDocumentFreqs := (words.foldl (stepWord id (1 / (words.length : ℚ)))
          (s.wordToDocumentFreqs, s.documentToWordFreqs)).1,
        documentToWordFreqs := (words.foldl (stepWord id (1 / (words.length : ℚ)))
          (s.wordToDocumentFreqs, s.documentToWordFreqs)).2,
        documents := mSet s.documents id ⟨computeAverageRating ratings, status⟩,
        documentIds := sInsert s.documentIds id } : SearchServer).documentToWordFreqs =
      (words.foldl (stepWord id (1 / (words.length : ℚ)))
          (s.wordToDocumentFreqs, s.documentToWordFreqs)).2 from rfl]
    rw [hrow, hfwd0]
    simp only [Option.getD_none]
    rw [(rowFold_sum (1 / (words.length : ℚ)) words [] mWF_nil).1]
    have hlen : (words.length : ℚ) ≠ 0 := by
      simp only [ne_eq, Nat.cast_eq_zero, List.length_eq_zero]
      exact hne
    rw [show valuesSum ([] : SMap String ℚ) = 0 from rfl]
    field_simp
  · intro heq
    subst heq
    unfold getWordFrequencies
    simp only [List.foldl_nil, List.length_nil]
    rw [hfwd0]
    rfl
  · unfold mContains
    rw [show ({ s with
        wordToDocumentFreqs := (words.foldl (stepWord id (1 / (words.length : ℚ)))
          (s.wordToDocumentFreqs, s.documentToWordFreqs)).1,
        documentToWordFreqs := (words.foldl (stepWord id (1 / (words.length : ℚ)))
          (s.wordToDocumentFreqs, s.documentToWordFreqs)).2,
        documents := mSet s.documents id ⟨computeAverageRating ratings, status⟩,
        documentIds := sInsert s.documentIds id } : SearchServer).documents =
      mSet s.documents id ⟨computeAverageRating ratings, status⟩ from rfl]
    rw [mFind?_mSet, if_pos rfl]
    rfl

/-- Witness for C6 on a concrete two-word document. -/
theorem claim_C6_witness :
    splitIntoWordsNoStop (mkServer ["in"]) "cat in city" = some ["cat", "city"] ∧
    (addDocument (mkServer ["in"]) 42 "cat in city" DocumentStatus.ACTUAL [1, 2, 3]).2 = none ∧
    valuesSum (getWordFrequencies c2Server 42) = 1 :=
  ⟨by decide, by decide,
   (claim_C6 (mkServer ["in"]) 42 "cat in city" DocumentStatus.ACTUAL [1, 2, 3]
      ["cat", "city"] (invariant_mkServer ["in"]) (by decide) (by decide)).1
     (by decide)⟩

/-- Claim C1 as stated is refuted at a concrete input: on a fresh server,
id `0` is not live, yet the plain `RemoveDocument` overload raises
`std::out_of_range` (from `document_to_word_freqs_.at`,
search_server.cpp:57) instead of being a silent no-op. -/
theorem claim_C1_counterexample :
    (0 : Int) ∉ (mkServer []).documentIds ∧
    (removeDocumentPlain (mkServer []) 0).2 = true := by
  constructor
  · decide
  · rfl

/-- Claim C1, amended: for an id that is not live, the policy overloads of
`RemoveDocument` are silent no-ops (state unchanged, no exception, and a
second call behaves the same), while the plain overload also leaves the
state exactly unchanged but raises `std::out_of_range`. -/
theorem claim_C1 (s : SearchServer) (id : Int) (h : invariantHolds s)
    (habs : mContains s.documents id = false) :
    removeDocumentPolicy s id = (s, false) ∧
    removeDocumentPlain s id = (s, true) ∧
    removeDocumentPolicy (removeDocumentPolicy s id).1 id = (s, false) := by
  obtain ⟨w1, w2, w3, w4, w5, w6, w7, w8, w9⟩ := h
  have hdoc : mFind? id s.documents = none := (mContains_false_iff _ _).mp habs
  have hids : id ∉ s.documentIds := by
    rw [w6]
    rw [mFind?_eq_none_iff] at hdoc
    exact hdoc
  have hfwd : mFind? id s.documentToWordFreqs = none := by
    rw [mFind?_eq_none_iff]
    intro hmem
    rcases List.mem_map.mp hmem with ⟨e, he, hfe⟩
    have hc := w7 e he
    rw [hfe] at hc
    simp [habs] at hc
  have e1 : mErase s.documents id = s.documents := mErase_of_absent _ _ hdoc
  have e2 : sErase s.documentIds id = s.documentIds := sErase_of_absent _ _ hids
  have hpol : removeDocumentPolicy s id = (s, false) := by
    simp [removeDocumentPolicy, habs]
  refine ⟨hpol, ?_, ?_⟩
  · unfold removeDocumentPlain
    rw [hfwd]
    simp only [e1, e2]
  · rw [hpol]
    exact hpol

/-- Witness for the amended C1 at a concrete server and absent id. -/
theorem claim_C1_witness :
    invariantHolds c1Server ∧ mContains c1Server.documents 0 = false ∧
    (removeDocumentPolicy c1Server 0 = (c1Server, false) ∧
     removeDocumentPlain c1Server 0 = (c1Server, true) ∧
     removeDocumentPolicy (removeDocumentPolicy c1Server 0).1 0 = (c1Server, false)) :=
  ⟨reachable_invariant c1Server c1Server_reachable, by decide,
   claim_C1 c1Server 0 (reachable_invariant c1Server c1Server_reachable) (by decide)⟩

/-- Claim C2: in every reachable state the forward and inverted indices are
exact mirrors: `d` maps to `w` with frequency `f` in the forward index iff
`w` maps to `d` with the same `f` in the inverted index. -/
theorem claim_C2 (s : SearchServer) (h : Reachable s) (d : Int) (w : String) (f : ℚ) :
    mFind2 s.documentToWordFreqs d w = some f ↔
      mFind2 s.wordToDocumentFreqs w d = some f := by
  rw [mirror_of_inv s (reachable_invariant s h) w d]

/-- Witness for C2 on a concrete reachable state. -/
theorem claim_C2_witness :
    mFind2 c2Server.documentToWordFreqs 42 "cat" = some (1 / 2) ↔
      mFind2 c2Server.wordToDocumentFreqs "cat" 42 = some (1 / 2) :=
  claim_C2 c2Server c2Server_reachable 42 "cat" (1 / 2)

/-- Claim C10: in every reachable state the live-id set equals the key set
of the documents map, every forward-index key is live, and
`GetDocumentCount` equals the number of live ids; moreover a document
consisting entirely of stop words is reachable that is live with no
forward-index entry at all. -/
theorem claim_C10 :
    (∀ s : SearchServer, Reachable s →
      s.documentIds = s.documents.map Prod.fst ∧
      (∀ e ∈ s.documentToWordFreqs, mContains s.documents e.1 = true) ∧
      getDocumentCount s = s.documentIds.length) ∧
    (∃ s : SearchServer, ∃ id : Int, Reachable s ∧ id ∈ s.documentIds ∧
      mFind? id s.documentToWordFreqs = none) := by
  constructor
  · intro s hr
    obtain ⟨-, -, -, -, -, w6, w7, -, -⟩ := reachable_invariant s hr
    refine ⟨w6, w7, ?_⟩
    rw [w6, getDocumentCount, List.length_map]
  · exact ⟨c10Server, 1, c10Server_reachable, by decide, by decide⟩

/-- Witness for C10 on a concrete reachable state. -/
theorem claim_C10_witness :
    c10Server.documentIds = c10Server.documents.map Prod.fst ∧
    (∀ e ∈ c10Server.documentToWordFreqs, mContains c10Server.documents e.1 = true) ∧
    getDocumentCount c10Server = c10Server.documentIds.length :=
  claim_C10.1 c10Server c10Server_reachable

/-- After a full removal, the forward row is gone, the id left the live
set, and no inverted posting references the id. -/
theorem removeCore_post (s : SearchServer) (id : Int) (wm : SMap String ℚ)
    (h : invariantHolds s) (hwm : mFind? id s.documentToWordFreqs = some wm) :
    (mFind? id (mErase s.documentToWordFreqs id)).getD [] = ([] : SMap String ℚ) ∧
    id ∉ sErase s.documentIds id ∧
    (∀ w, mFind2 (wm.foldl (fun acc e => eraseFromInverted acc e.1 id)
      s.wordToDocumentFreqs) w id = none) := by
  refine ⟨?_, ?_, ?_⟩
  · rw [mFind?_mErase, if_pos rfl]
    rfl
  · intro hmem
    exact ((mem_sErase _ _ _).mp hmem).2 rfl
  · intro w
    rw [removeLoop_find]
    by_cases h2 : w ∈ wm.map Prod.fst
    · rw [if_pos ⟨rfl, h2⟩]
    · rw [if_neg (fun hh => h2 hh.2)]
      rw [mirror_of_inv s h w id]
      unfold mFind2
      rw [hwm, mFind?_eq_none_iff]
      exact h2

/-- Claim C8: for every live id, after the plain `RemoveDocument`
(whether it returns or throws) `GetWordFrequencies(id)` is empty, the id is
gone from live-id iteration, and no inverted posting references it; the
policy overload gives the same guarantees whenever it returns normally. -/
theorem claim_C8 (s : SearchServer) (id : Int) (h : invariantHolds s)
    (hlive : id ∈ s.documentIds) :
    (getWordFrequencies (removeDocumentPlain s id).1 id = [] ∧
     id ∉ (removeDocumentPlain s id).1.documentIds ∧
     (∀ w, mFind2 (removeDocumentPlain s id).1.wordToDocumentFreqs w id = none)) ∧
    ((removeDocumentPolicy s id).2 = false →
      getWordFrequencies (removeDocumentPolicy s id).1 id = [] ∧
      id ∉ (removeDocumentPolicy s id).1.documentIds ∧
      (∀ w, mFind2 (removeDocumentPolicy s id).1.wordToDocumentFreqs w id = none)) := by
  have hcont : mContains s.documents id = true := by
    obtain ⟨-, -, -, -, -, w6, -, -, -⟩ := h
    rw [w6] at hlive
    unfold mContains
    rcases hf : mFind? id s.documents with - | v
    · rw [mFind?_eq_none_iff] at hf
      exact absurd hlive hf
    · rfl
  constructor
  · unfold removeDocumentPlain
    rcases hwm : mFind? id s.documentToWordFreqs with - | wm
    · refine ⟨?_, ?_, ?_⟩
      · unfold getWordFrequencies
        rw [hwm]
        rfl
      · intro hmem
        exact ((mem_sErase _ _ _).mp hmem).2 rfl
      · intro w
        rw [mirror_of_inv s h w id]
        unfold mFind2
        rw [hwm]
    · obtain ⟨p1, p2, p3⟩ := removeCore_post s id wm h hwm
      exact ⟨p1, p2, p3⟩
  · intro hfalse
    have hnc : ¬ ¬ mContains s.documents id = true := fun hh => hh hcont
    unfold removeDocumentPolicy at hfalse ⊢
    rw [if_neg hnc] at hfalse ⊢
    rcases hwm : mFind? id s.documentToWordFreqs with - | wm
    · rw [hwm] at hfalse
      exact Bool.noConfusion hfalse
    · obtain ⟨p1, p2, p3⟩ := removeCore_post s id wm h hwm
      exact ⟨p1, p2, p3⟩

/-- Witness for C8 on a concrete server and live id. -/
theorem claim_C8_witness :
    getWordFrequencies (removeDocumentPlain c2Server 42).1 42 = [] ∧
    42 ∉ (removeDocumentPlain c2Server 42).1.documentIds ∧
    mFind2 (removeDocumentPlain c2Server 42).1.wordToDocumentFreqs "cat" 42 = none :=
  ⟨(claim_C8 c2Server 42 (reachable_invariant c2Server c2Server_reachable) (by decide)).1.1,
   (claim_C8 c2Server 42 (reachable_invariant c2Server c2Server_reachable) (by decide)).1.2.1,
   (claim_C8 c2Server 42 (reachable_invariant c2Server c2Server_reachable) (by decide)).1.2.2 "cat"⟩

/-- Witness for C7: a negative id fails with `InvalidArgument` and leaves
the fresh server unchanged. -/
theorem claim_C7_witness :
    ((addDocument (mkServer []) (-1) "cat" DocumentStatus.ACTUAL []).2 =
        some AddErr.invalidArgument ↔
      (-1 : Int) < 0 ∨ mContains (mkServer []).documents (-1) = true) ∧
    ((addDocument (mkServer []) (-1) "cat" DocumentStatus.ACTUAL []).2 ≠ none →
      (addDocument (mkServer []) (-1) "cat" DocumentStatus.ACTUAL []).1 = mkServer []) :=
  claim_C7 (mkServer []) (-1) "cat" DocumentStatus.ACTUAL []


theorem foldSet_wf (sh : SMap Int ℚ) (acc : SMap Int ℚ) (h : mWF acc = true) :
    mWF (sh.foldl (fun a e => mSet a e.1 e.2) acc) = true := by
  induction sh generalizing acc with
  | nil => exact h
  | cons e t ih =>
    rw [List.foldl_cons]
    exact ih _ (mWF_mSet _ _ _ h)

theorem mergeOne_find (sh : SMap Int ℚ) (acc : SMap Int ℚ) (k : Int)
    (hwf : mWF sh = true) :
    mFind? k (sh.foldl (fun a e => mSet a e.1 e.2) acc) =
      match mFind? k sh with
      | some v => some v
      | none => mFind? k acc := by
  induction sh generalizing acc with
  | nil => rfl
  | cons e t ih =>
    rw [List.foldl_cons, ih _ (mWF_tail e t hwf)]
    by_cases h1 : k = e.1
    · have hnone : mFind? k t = none := by
        rw [h1]
        exact mFind?_tail_none t e hwf
      have hhead : mFind? k (e :: t) = some e.2 := by
        simp [mFind?, h1.symm]
      rw [hnone, hhead, mFind?_mSet, if_pos h1]
    · have hhead : mFind? k (e :: t) = mFind? k t := by
        have : ¬ e.1 = k := fun hh => h1 hh.symm
        simp [mFind?, this]
      rw [hhead, mFind?_mSet, if_neg h1]

theorem mergeAll_wf (shards : List (SMap Int ℚ)) (acc : SMap Int ℚ)
    (h : mWF acc = true) :
    mWF (shards.foldl (fun a sh => sh.foldl (fun a e => mSet a e.1 e.2) a) acc) = true := by
  induction shards generalizing acc with
  | nil => exact h
  | cons sh t ih =>
    rw [List.foldl_cons]
    exact ih _ (foldSet_wf sh acc h)

theorem mergeAll_find (shards : List (SMap Int ℚ)) (acc : SMap Int ℚ) (k : Int)
    (hwf : ∀ sh ∈ shards, mWF sh = true) :
    mFind? k (shards.foldl (fun a sh => sh.foldl (fun a e => mSet a e.1 e.2) a) acc) =
      shards.foldl (fun r sh =>
        match mFind? k sh with
        | some v => some v
        | none => r) (mFind? k acc) := by
  induction shards generalizing acc with
  | nil => rfl
  | cons sh t ih =>
    rw [List.foldl_cons, List.foldl_cons]
    rw [ih _ (fun s2 hs2 => hwf s2 (List.mem_cons_of_mem _ hs2))]
    rw [mergeOne_find sh acc k (hwf sh (List.mem_cons_self _ _))]

theorem foldOpt_all_none (shards : List (SMap Int ℚ)) (k : Int) (init : Option ℚ)
    (h : ∀ sh ∈ shards, mFind? k sh = none) :
    shards.foldl (fun r sh =>
      match mFind? k sh with
      | some v => some v
      | none => r) init = init := by
  induction shards generalizing init with
  | nil => rfl
  | cons sh t ih =>
    rw [List.foldl_cons, h sh (List.mem_cons_self _ _)]
    exact ih _ (fun s2 hs2 => h s2 (List.mem_cons_of_mem _ hs2))

theorem foldOpt_eq_at (shards : List (SMap Int ℚ)) (k : Int) (j : Nat)
    (hj : j < shards.length)
    (hothers : ∀ i : Nat, ∀ hi : i < shards.length, i ≠ j → mFind? k shards[i] = none) :
    shards.foldl (fun r sh =>
      match mFind? k sh with
      | some v => some v
      | none => r) none = mFind? k shards[j] := by
  induction shards generalizing j with
  | nil => exact absurd hj (by simp)
  | cons sh t ih =>
    rw [List.foldl_cons]
    cases j with
    | zero =>
      have hrest : ∀ s2 ∈ t, mFind? k s2 = none := by
        intro s2 hs2
        rcases List.mem_iff_get.mp hs2 with ⟨⟨i, hi⟩, hget⟩
        have hbound : i + 1 < (sh :: t).length := by
          simp only [List.length_cons]
          omega
        have := hothers (i + 1) hbound (by omega)
        rw [List.getElem_cons_succ] at this
        rw [← hget, List.get_eq_getElem]
        exact this
      rw [foldOpt_all_none t k _ hrest, List.getElem_cons_zero]
      rcases hsh : mFind? k sh <;> rfl
    | succ j2 =>
      have h0 : mFind? k sh = none := by
        have hbound : 0 < (sh :: t).length := by simp
        have := hothers 0 hbound (by omega)
        rwa [List.getElem_cons_zero] at this
      rw [h0]
      have hj2 : j2 < t.length := by
        simp only [List.length_cons] at hj
        omega
      rw [List.getElem_cons_succ]
      refine ih j2 hj2 ?_
      intro i hi hne
      have hbound : i + 1 < (sh :: t).length := by
        simp only [List.length_cons]
        omega
      have := hothers (i + 1) hbound (by omega)
      rwa [List.getElem_cons_succ] at this

theorem ShardRel_cmapAdd (n : Nat) (shards : List (SMap Int ℚ)) (flat : SMap Int ℚ)
    (k : Int) (δ : ℚ) (hn : 0 < n) (h : ShardRel n shards flat) :
    ShardRel n (cmapAdd n shards k δ) (mAdd flat k δ) := by
  obtain ⟨hlen, hwfF, hwfS, hidx, hrel⟩ := h
  have hklt : k.natAbs % n < shards.length := by
    rw [hlen]
    exact Nat.mod_lt _ hn
  have hgetD : shards.getD (k.natAbs % n) [] = shards[k.natAbs % n] :=
    List.getD_eq_getElem shards [] hklt
  refine ⟨?_, mWF_mAdd _ _ _ hwfF, ?_, ?_, ?_⟩
  · unfold cmapAdd
    rw [List.length_set]
    exact hlen
  · intro sh hsh
    rcases List.mem_or_eq_of_mem_set hsh with hmem | rfl
    · exact hwfS sh hmem
    · refine mWF_mAdd _ _ _ ?_
      rw [hgetD]
      exact hwfS _ (List.getElem_mem hklt)
  · intro i hi k2 hsome
    have hi2 : i < shards.length := by
      unfold cmapAdd at hi
      rw [List.length_set] at hi
      exact hi
    unfold cmapAdd at hsome
    rw [List.getElem_set] at hsome
    by_cases hik : k.natAbs % n = i
    · subst hik
      rw [if_pos rfl, hgetD, mFind?_mAdd] at hsome
      by_cases hk2 : k2 = k
      · rw [hk2]
      · rw [if_neg hk2] at hsome
        exact hidx _ hi2 k2 hsome
    · rw [if_neg hik] at hsome
      exact hidx i hi2 k2 hsome
  · intro k2 hk2
    have hk2len : k2.natAbs % n < shards.length := by
      unfold cmapAdd at hk2
      rw [List.length_set] at hk2
      exact hk2
    unfold cmapAdd
    rw [List.getElem_set]
    by_cases heq : k.natAbs % n = k2.natAbs % n
    · rw [if_pos heq, hgetD, mFind?_mAdd, mFind?_mAdd]
      by_cases hk2k : k2 = k
      · rw [if_pos hk2k, if_pos hk2k, hrel k hklt]
      · rw [if_neg hk2k, if_neg hk2k, ← hgetD, heq,
          List.getD_eq_getElem shards [] hk2len]
        exact hrel k2 hk2len
    · rw [if_neg heq, mFind?_mAdd]
      have hk2k : ¬ k2 = k := by
        intro hh
        rw [hh] at heq
        exact heq rfl
      rw [if_neg hk2k]
      exact hrel k2 hk2len

theorem ShardRel_postFold (n : Nat) (hn : 0 < n) (s : SearchServer)
    (pred : Int → DocumentStatus → Int → Bool) (idf : ℚ) (pm : SMap Int ℚ)
    (shards : List (SMap Int ℚ)) (flat : SMap Int ℚ) (h : ShardRel n shards flat) :
    ShardRel n
      (pm.foldl (fun sh e =>
        if pred e.1 ((mFind? e.1 s.documents).getD ⟨0, .ACTUAL⟩).status
            ((mFind? e.1 s.documents).getD ⟨0, .ACTUAL⟩).rating
          then cmapAdd n sh e.1 (e.2 * idf) else sh) shards)
      (pm.foldl (fun m e =>
        if pred e.1 ((mFind? e.1 s.documents).getD ⟨0, .ACTUAL⟩).status
            ((mFind? e.1 s.documents).getD ⟨0, .ACTUAL⟩).rating
          then mAdd m e.1 (e.2 * idf) else m) flat) := by
  induction pm generalizing shards flat with
  | nil => exact h
  | cons e t ih =>
    rw [List.foldl_cons, List.foldl_cons]
    by_cases hp : pred e.1 ((mFind? e.1 s.documents).getD ⟨0, .ACTUAL⟩).status
        ((mFind? e.1 s.documents).getD ⟨0, .ACTUAL⟩).rating = true
    · rw [if_pos hp, if_pos hp]
      exact ih _ _ (ShardRel_cmapAdd n shards flat e.1 (e.2 * idf) hn h)
    · rw [if_neg hp, if_neg hp]
      exact ih _ _ h

theorem ShardRel_accumWord (n : Nat) (hn : 0 < n) (LOG : ℚ → ℚ) (s : SearchServer)
    (pred : Int → DocumentStatus → Int → Bool) (w : String)
    (shards : List (SMap Int ℚ)) (flat : SMap Int ℚ) (h : ShardRel n shards flat) :
    ShardRel n (accumulateWordPar n LOG s pred shards w)
      (accumulateWord LOG s pred flat w) := by
  unfold accumulateWordPar accumulateWord
  rcases hf : mFind? w s.wordToDocumentFreqs with - | pm
  · exact h
  · exact ShardRel_postFold n hn s pred (wordIdf LOG s pm) pm shards flat h

theorem ShardRel_accumFold (n : Nat) (hn : 0 < n) (LOG : ℚ → ℚ) (s : SearchServer)
    (pred : Int → DocumentStatus → Int → Bool) (ws : List String)
    (shards : List (SMap Int ℚ)) (flat : SMap Int ℚ) (h : ShardRel n shards flat) :
    ShardRel n (ws.foldl (accumulateWordPar n LOG s pred) shards)
      (ws.foldl (accumulateWord LOG s pred) flat) := by
  induction ws generalizing shards flat with
  | nil => exact h
  | cons w t ih =>
    rw [List.foldl_cons, List.foldl_cons]
    exact ih _ _ (ShardRel_accumWord n hn LOG s pred w shards flat h)

theorem ShardRel_init (n : Nat) : ShardRel n (List.replicate n []) [] := by
  refine ⟨List.length_replicate n [], rfl, ?_, ?_, ?_⟩
  · intro sh hsh
    rw [List.eq_of_mem_replicate hsh]
    rfl
  · intro i hi k hsome
    rw [List.getElem_replicate] at hsome
    cases hsome
  · intro k hk
    rw [List.getElem_replicate]

theorem ShardRel_buildOrdinary (n : Nat) (hn : 0 < n) (shards : List (SMap Int ℚ))
    (flat : SMap Int ℚ) (h : ShardRel n shards flat) :
    buildOrdinaryMap shards = flat := by
  obtain ⟨hlen, hwfF, hwfS, hidx, hrel⟩ := h
  refine mExt _ _ (mergeAll_wf shards [] rfl) hwfF ?_
  intro k
  unfold buildOrdinaryMap
  rw [mergeAll_find shards [] k hwfS]
  have hklt : k.natAbs % n < shards.length := by
    rw [hlen]
    exact Nat.mod_lt _ hn
  have hothers : ∀ i : Nat, ∀ hi : i < shards.length, i ≠ k.natAbs % n →
      mFind? k shards[i] = none := by
    intro i hi hne
    rcases hfv : mFind? k shards[i] with - | v
    · rfl
    · exfalso
      refine hne ?_
      refine (hidx i hi k ?_).symm
      rw [hfv]
      rfl
  rw [show mFind? k ([] : SMap Int ℚ) = none from rfl]
  rw [foldOpt_eq_at shards k (k.natAbs % n) hklt hothers]
  exact hrel k hklt

/-- The parallel `FindAllDocuments` computes exactly the sequential result,
for every shard count. -/
theorem findAllPar_eq_seq (n : Nat) (hn : 0 < n) (LOG : ℚ → ℚ) (s : SearchServer)
    (q : Query) (pred : Int → DocumentStatus → Int → Bool) :
    findAllDocumentsPar n LOG s q pred = findAllDocumentsSeq LOG s q pred := by
  unfold findAllDocumentsPar findAllDocumentsSeq
  rw [ShardRel_buildOrdinary n hn _ _
    (ShardRel_accumFold n hn LOG s pred q.plusWords (List.replicate n []) []
      (ShardRel_init n))]

/-- Claim C3: for every index state, query, predicate (and logarithm), the
parallel `FindTopDocuments` path returns exactly the sequential path's
list — same ids, same scores, same order — for every positive shard count. -/
theorem claim_C3 (n : Nat) (hn : 0 < n) (LOG : ℚ → ℚ) (s : SearchServer)
    (raw : String) (pred : Int → DocumentStatus → Int → Bool) :
    findTopDocumentsPar n LOG s raw pred = findTopDocumentsSeq LOG s raw pred := by
  unfold findTopDocumentsPar findTopDocumentsSeq parseQuerySeq
  rcases parseQueryRaw s raw with - | q0
  · rfl
  · simp only [Option.map_some']
    rw [findAllPar_eq_seq n hn]

/-- Witness for C3 at the repository's shard count 500, on a concrete
server, query, predicate and logarithm. -/
theorem claim_C3_witness :
    findTopDocumentsPar 500 (fun _ => 1) c2Server "cat dog"
        (fun _ st _ => st == DocumentStatus.ACTUAL) =
      findTopDocumentsSeq (fun _ => 1) c2Server "cat dog"
        (fun _ st _ => st == DocumentStatus.ACTUAL) :=
  claim_C3 500 (by decide) (fun _ => 1) c2Server "cat dog"
    (fun _ st _ => st == DocumentStatus.ACTUAL)

theorem strLt_aa_bb : ("aa" : String) < "bb" := by
  rw [String.lt_iff_toList_lt]
  decide

theorem strLt_bb_cc : ("bb" : String) < "cc" := by
  rw [String.lt_iff_toList_lt]
  decide

theorem strNotLt_bb_aa : ¬ (("bb" : String) < "aa") := by
  rw [String.lt_iff_toList_lt]
  decide

theorem strNotLt_cc_aa : ¬ (("cc" : String) < "aa") := by
  rw [String.lt_iff_toList_lt]
  decide

theorem strNotLt_cc_bb : ¬ (("cc" : String) < "bb") := by
  rw [String.lt_iff_toList_lt]
  decide

theorem strNotLt_bb_bb : ¬ (("bb" : String) < "bb") := by
  rw [String.lt_iff_toList_lt]
  decide

theorem strNotLt_cc_cc : ¬ (("cc" : String) < "cc") := by
  rw [String.lt_iff_toList_lt]
  decide

/-- The C5 counterexample server, evaluated to its literal state. -/
theorem c5_state : c5Server =
    ⟨[],
     [(1, ⟨5, DocumentStatus.ACTUAL⟩), (2, ⟨1, DocumentStatus.ACTUAL⟩),
      (3, ⟨0, DocumentStatus.ACTUAL⟩), (4, ⟨0, DocumentStatus.BANNED⟩),
      (5, ⟨0, DocumentStatus.BANNED⟩), (6, ⟨0, DocumentStatus.BANNED⟩)],
     [("aa", [(1, 1)]), ("bb", [(2, 1), (4, 1)]), ("cc", [(3, 1), (5, 1), (6, 1)])],
     [(1, [("aa", 1)]), (2, [("bb", 1)]), (3, [("cc", 1)]),
      (4, [("bb", 1)]), (5, [("cc", 1)]), (6, [("cc", 1)])],
     [1, 2, 3, 4, 5, 6]⟩ := by
  unfold c5Server
  norm_num +decide [addDocument, mkServer, makeUniqueNonEmptyStrings, splitIntoWordsNoStop,
    splitIntoWords, splitIntoWordsAux, isValidWord, isStopWord, stepWord, mAdd,
    mSet, mFind?, mContains, computeAverageRating, sInsert, Int.tdiv,
    strNotLt_bb_aa, strNotLt_cc_aa, strNotLt_cc_bb, strNotLt_bb_bb, strNotLt_cc_cc]

/-- Evaluation of the counterexample query: the scores form an
epsilon-chain, so the insertion order produced by the comparator lists the
lowest score first. -/
theorem c5_eval :
    findTopDocumentsSeq c5LOG c5Server "aa bb cc" c5Pred = some c5Result := by
  rw [c5_state]
  norm_num +decide [findTopDocumentsSeq, parseQuerySeq, parseQueryRaw, parseQueryChunk,
    parseQueryWord, splitIntoWords, splitIntoWordsAux, isValidWord, isStopWord,
    deleteCopy, strSort, strInsert, dedupAdj, findAllDocumentsSeq, accumulateWord,
    eraseMinusWord, materialize, wordIdf, getDocumentCount, mFind?, mAdd, mSet,
    docSort, docInsert, docBefore, ratAbs, EPSILON, MAX_RESULT_DOCUMENT_COUNT,
    c5LOG, c5Pred, c5Result, strLt_aa_bb, strLt_bb_cc]

/-- Claim C5 as stated is refuted: on the counterexample state and query,
the returned list is not pairwise ordered by the claimed criterion — the
head's score is below the last element's score by more than `EPSILON`
(1e-6), yet it is listed first, because the epsilon/rating comparator is
not transitive across chains of near-ties. -/
theorem claim_C5_counterexample :
    Reachable c5Server ∧
    findTopDocumentsSeq c5LOG c5Server "aa bb cc" c5Pred = some c5Result ∧
    ¬ List.Pairwise (fun a b => docBefore b a = false) c5Result := by
  refine ⟨?_, c5_eval, ?_⟩
  · exact Reachable.add _ 6 "cc" DocumentStatus.BANNED [0]
      (Reachable.add _ 5 "cc" DocumentStatus.BANNED [0]
        (Reachable.add _ 4 "bb" DocumentStatus.BANNED [0]
          (Reachable.add _ 3 "cc" DocumentStatus.ACTUAL [0]
            (Reachable.add _ 2 "bb" DocumentStatus.ACTUAL [1]
              (Reachable.add _ 1 "aa" DocumentStatus.ACTUAL [5]
                (Reachable.init []))))))
  · intro hp
    unfold c5Result at hp
    have h13 := (List.pairwise_cons.mp hp).1 ⟨3, 1, 0⟩
      (List.mem_cons_of_mem _ (List.mem_cons_self _ _))
    have htrue : docBefore ⟨3, 1, 0⟩ ⟨1, 1 - 3 / 2000000, 5⟩ = true := by
      norm_num [docBefore, ratAbs, EPSILON]
    rw [htrue] at h13
    cases h13

theorem ratAbs_sub_comm (x y : ℚ) : ratAbs (x - y) = ratAbs (y - x) := by
  unfold ratAbs
  split <;> split <;> linarith

/-- The result comparator is asymmetric (though not transitive). -/
theorem docBefore_asymm (a b : Document) (h : docBefore a b = true) :
    docBefore b a = false := by
  unfold docBefore at h ⊢
  rw [show ratAbs (b.relevance - a.relevance) = ratAbs (a.relevance - b.relevance)
    from ratAbs_sub_comm _ _]
  by_cases ht : ratAbs (a.relevance - b.relevance) < EPSILON
  · rw [if_pos ht] at h
    rw [if_pos ht]
    simp only [decide_eq_true_eq] at h
    simp only [decide_eq_false_iff_not]
    omega
  · rw [if_neg ht] at h
    rw [if_neg ht]
    simp only [decide_eq_true_eq] at h
    simp only [decide_eq_false_iff_not]
    exact not_lt.mpr (le_of_lt h)

theorem bool_eq_false_of_not_true (b : Bool) (h : ¬ b = true) : b = false := by
  rcases b
  · rfl
  · exact absurd rfl h

/-- Inserting with the comparator preserves adjacent-pairwise sortedness. -/
theorem docInsert_chain (a : Document) (l : List Document)
    (h : List.Chain' (fun x y => docBefore y x = false) l) :
    List.Chain' (fun x y => docBefore y x = false) (docInsert a l) := by
  induction l with
  | nil => simp [docInsert]
  | cons b t ih =>
    unfold docInsert
    by_cases hab : docBefore a b = true
    · rw [if_pos hab]
      rw [List.chain'_cons]
      exact ⟨docBefore_asymm a b hab, h⟩
    · rw [if_neg hab]
      rw [List.chain'_cons']
      refine ⟨?_, ih h.tail⟩
      intro y hy
      cases t with
      | nil =>
        simp only [docInsert, List.head?_cons, Option.mem_def, Option.some.injEq] at hy
        rw [← hy]
        exact bool_eq_false_of_not_true _ hab
      | cons c t2 =>
        unfold docInsert at hy
        by_cases hac : docBefore a c = true
        · rw [if_pos hac] at hy
          simp only [List.head?_cons, Option.mem_def, Option.some.injEq] at hy
          rw [← hy]
          exact bool_eq_false_of_not_true _ hab
        · rw [if_neg hac] at hy
          simp only [List.head?_cons, Option.mem_def, Option.some.injEq] at hy
          rw [← hy]
          exact (List.chain'_cons.mp h).1

/-- The embedded result sort is adjacent-pairwise sorted under the
comparator. -/
theorem docSort_chain (l : List Document) :
    List.Chain' (fun x y => docBefore y x = false) (docSort l) := by
  induction l with
  | nil => simp [docSort]
  | cons a t ih =>
    unfold docSort
    exact docInsert_chain a (docSort t) ih

/-- Claim C5, amended: the list returned by `FindTopDocuments` never exceeds
`MAX_RESULT_DOCUMENT_COUNT` (5) and is sorted in the comparator sense —
every element is ordered relative to the next by relevance descending with
the rating tie-break inside `EPSILON`. (The all-pairs reading of the claim
fails on chains of epsilon-ties, see the counterexample.) -/
theorem claim_C5 (LOG : ℚ → ℚ) (s : SearchServer) (raw : String)
    (pred : Int → DocumentStatus → Int → Bool) (res : List Document)
    (h : findTopDocumentsSeq LOG s raw pred = some res) :
    res.length ≤ MAX_RESULT_DOCUMENT_COUNT ∧
    List.Chain' (fun a b => docBefore b a = false) res := by
  unfold findTopDocumentsSeq at h
  rcases hq : parseQuerySeq s raw with - | q
  · rw [hq] at h
    cases h
  · rw [hq] at h
    simp only [Option.map_some'] at h
    have h2 := Option.some.inj h
    rw [← h2]
    constructor
    · exact List.length_take_le _ _
    · have hpre := List.take_prefix MAX_RESULT_DOCUMENT_COUNT
        (docSort (findAllDocumentsSeq LOG s q pred))
      exact List.Chain'.prefix (docSort_chain _) hpre

/-- Witness for the amended C5 on a concrete evaluated query. -/
theorem claim_C5_witness :
    findTopDocumentsSeq (fun _ => 1) (mkServer []) "cat" (fun _ _ _ => true) =
      some [] ∧
    (([] : List Document).length ≤ MAX_RESULT_DOCUMENT_COUNT ∧
     List.Chain' (fun a b => docBefore b a = false) ([] : List Document)) :=
  ⟨rfl, claim_C5 (fun _ => 1) (mkServer []) "cat" (fun _ _ _ => true) [] rfl⟩
